import Mathlib

/-!
ErasureCode: chunk preparation and orchestration

A shallow embedding of `src/erasure-code/ErasureCode.cc` (the base class of the
erasure-code plugins) together with proofs about the minimum-set solver, the
encode and decode orchestrators, the concatenation helper, the chunk index
mapper and the parameter coercion helpers, and of the capability parser of
`src/mds/MDSAuthCaps.cc`.

Conventions of the embedding

* `std::set<int>` is a list of integers in strictly ascending order; the order
  is the iteration order of the C++ container.  Theorems that take a set as an
  input assume `List.Sorted (· < ·)`.
* `std::map<int, bufferlist>` is an association list with strictly ascending
  keys (`ChunkMap`).
* a `bufferlist` is the sequence of its bytes.  Whether a buffer is memory
  aligned is a fact about addresses, which the embedding does not model; the
  one place where the code branches on it takes the answer as an input.
* `unsigned` values are naturals reduced modulo `2 ^ 32` after every operation.
* a `std::string` is a `String`; where the code reads it character by
  character the embedding reads the bytes of its UTF-8 encoding, and the loops
  over characters are stated for every list of bytes.
* an operation whose C++ behaviour is undefined, throws or aborts returns
  `none`.
-/

namespace ErasureCode

/-! ## Machine integers -/

/-- The value of an `unsigned` expression: reduction modulo `2 ^ 32`. -/
def u32 (x : Nat) : Nat := x % 2 ^ 32

/-- Subtraction of two `unsigned` values, wrapping around below zero. -/
def usub (a b : Nat) : Nat := (a + 2 ^ 32 - b % 2 ^ 32) % 2 ^ 32

/-- Conversion of an `unsigned` value to `int` (two's complement). -/
def int_of_unsigned (i : Nat) : Int :=
  if i % 2 ^ 32 < 2 ^ 31 then ((i % 2 ^ 32 : Nat) : Int) else ((i % 2 ^ 32 : Nat) : Int) - 2 ^ 32

/-- The errno value of `EIO`. -/
def EIO_val : Int := 5

/-- The errno value of `EINVAL`. -/
def EINVAL_val : Int := 22

/-! ## Data model -/

/-- One byte of a buffer. -/
abbrev Byte := Fin 256

/-- Modelled from the spec: the buffer abstraction (`bufferlist`, declared in
`include/buffer.h`, not part of the sources at hand), an "append-only byte
buffer supporting zero-copy sub-range views".  Only its contents are
modelled. -/
abbrev bufferlist := List Byte

/-- A `std::map<int, bufferlist>`: chunk index to chunk, ascending keys. -/
abbrev ChunkMap := List (Int × bufferlist)

/-- The configuration of an erasure-code instance.  `k` is what
`get_data_chunk_count()` returns, `k + m` is what `get_chunk_count()` returns
and `get_chunk_size` is the layout calculator; the three are virtual functions
implemented by the plugins and enter the embedding as parameters. -/
structure Instance where
  /-- The number of data chunks. -/
  k : Nat
  /-- The number of coding chunks. -/
  m : Nat
  /-- The member `vector<int> chunk_mapping`. -/
  chunk_mapping : List Int
  /-- The result of `get_chunk_size(object_size)`. -/
  get_chunk_size : Nat → Nat

/-- The value `get_data_chunk_count()` returns, an `unsigned int`. -/
def Instance.get_data_chunk_count (ec : Instance) : Nat := u32 ec.k

/-- The value `get_chunk_count()` returns, an `unsigned int`. -/
def Instance.get_chunk_count (ec : Instance) : Nat := u32 (ec.k + ec.m)

/-! ## Sets of chunk indices -/

/-- The algorithm `std::includes(first1, last1, first2, last2)` on two sorted
ranges: is every element of the second range in the first? -/
def includes : List Int → List Int → Bool
  | _, [] => true
  | [], _ :: _ => false
  | x :: xs, y :: ys =>
    if y < x then false
    else if x < y then includes xs (y :: ys)
    else includes xs ys

/-- The operation `std::set<int>::insert`. -/
def set_insert : List Int → Int → List Int
  | [], x => [x]
  | y :: ys, x =>
    if x < y then x :: y :: ys
    else if x = y then y :: ys
    else y :: set_insert ys x

/-! ## Minimum-set solver -/

/-- `ErasureCode::minimum_to_decode`: the return code and the final value of
`*minimum`, whose initial value is `minimum`. -/
def minimum_to_decode (ec : Instance) (want_to_read available_chunks minimum : List Int) :
    Int × List Int :=
  if includes available_chunks want_to_read then
    (0, want_to_read)
  else
    let k := ec.get_data_chunk_count
    if available_chunks.length < k then
      (-EIO_val, minimum)
    else
      (0, (available_chunks.take k).foldl set_insert minimum)

/-! ## Chunk maps -/

/-- The keys of a chunk map, in iteration order. -/
def map_keys (m : ChunkMap) : List Int := m.map Prod.fst

/-- The operation `std::map::find`: the chunk stored under `i`, if any. -/
def map_find : ChunkMap → Int → Option bufferlist
  | [], _ => none
  | (j, v) :: rest, i => if i = j then some v else map_find rest i

/-- The chunk `m[i]` as `operator[]` reads it: a key that is absent is created
with an empty buffer. -/
def map_at (m : ChunkMap) (i : Int) : bufferlist := (map_find m i).getD []

/-- The map after `m[i] = v`: the key is created in its place in the order, or
its chunk is replaced. -/
def map_set : ChunkMap → Int → bufferlist → ChunkMap
  | [], i, v => [(i, v)]
  | (j, w) :: rest, i, v =>
    if i < j then (i, v) :: (j, w) :: rest
    else if i = j then (i, v) :: rest
    else (j, w) :: map_set rest i v

/-- The operation `std::map::erase(key)`. -/
def map_erase : ChunkMap → Int → ChunkMap
  | [], _ => []
  | (j, w) :: rest, i => if i = j then map_erase rest i else (j, w) :: map_erase rest i

/-! ## Buffers -/

/-- Modelled from the spec: `buffer::create_aligned(len)` and
`buffer::create_page_aligned(len)` (buffer abstraction, not part of the sources
at hand) allocate `len` bytes and do not initialise them.  The bytes found in
the fresh allocation are given by `junk`. -/
def create_aligned (junk : Nat → Byte) (len : Nat) : bufferlist := (List.range len).map junk

/-- Modelled from the spec: `bufferlist::substr_of(other, off, len)` (buffer
abstraction, not part of the sources at hand), the "zero-copy sub-range view"
of `len` bytes at `off`.  A range that leaves `other` throws. -/
def substr_of (other : bufferlist) (off len : Nat) : Option bufferlist :=
  if off + len ≤ other.length then some ((other.drop off).take len) else none

/-- Modelled from the spec: `bufferlist::splice(off, len)` (buffer abstraction,
not part of the sources at hand) detaches `len` bytes at `off`.  Nothing
happens when `len` is zero; otherwise a range that leaves the buffer throws. -/
def splice (b : bufferlist) (off len : Nat) : Option bufferlist :=
  if len = 0 then some b
  else if off + len ≤ b.length then some (b.take off ++ b.drop (off + len))
  else none

/-- Modelled from the spec: `bufferlist::copy(off, len, dest)` (buffer
abstraction, not part of the sources at hand) reads `len` bytes at `off`.  A
range that leaves the buffer throws. -/
def copy (b : bufferlist) (off len : Nat) : Option (List Byte) :=
  if off + len ≤ b.length then some ((b.drop off).take len) else none

/-- The destination side of `raw.copy(off, len, buf.c_str())`: the bytes `src`
are stored at the head of `buf`.  Writing past the allocation is undefined. -/
def store_head (buf : bufferlist) (src : List Byte) : Option bufferlist :=
  if src.length ≤ buf.length then some (src ++ buf.drop src.length) else none

/-- Modelled from the spec: `bufferptr::zero(o, l)` (buffer abstraction, not
part of the sources at hand) sets `l` bytes at `o` to zero; the range has to
lie inside the buffer. -/
def zero (buf : bufferlist) (o l : Nat) : Option bufferlist :=
  if o + l ≤ buf.length then some (buf.take o ++ List.replicate l 0 ++ buf.drop (o + l)) else none

/-! ## Encode orchestrator -/

/-- The expression `chunk_mapping.size() > 0 ? chunk_mapping[i] : i` of
`encode_prepare`.  Reading `chunk_mapping` past its end is undefined. -/
def chunk_index (ec : Instance) (i : Nat) : Option Int :=
  if ec.chunk_mapping.length > 0 then ec.chunk_mapping.get? i else some (int_of_unsigned i)

/-- The first loop of `encode_prepare`, over the data chunks made of real bytes
only: `encoded[chunk_index].substr_of(prepared, i * blocksize, blocksize)`. -/
def prepare_data_loop (ec : Instance) (prepared : bufferlist) (blocksize : Nat) :
    List Nat → ChunkMap → Option ChunkMap
  | [], encoded => some encoded
  | i :: rest, encoded =>
    match chunk_index ec i with
    | none => none
    | some ci =>
      match substr_of prepared (u32 (i * blocksize)) blocksize with
      | none => none
      | some chunk => prepare_data_loop ec prepared blocksize rest (map_set encoded ci chunk)

/-- The second loop of `encode_prepare`, over the padded data chunks:
`encoded[chunk_index].substr_of(padded, (i - (k - padded_chunks)) * blocksize,
blocksize)`; `first` is `k - padded_chunks`. -/
def prepare_padded_loop (ec : Instance) (padded : bufferlist) (blocksize first : Nat) :
    List Nat → ChunkMap → Option ChunkMap
  | [], encoded => some encoded
  | i :: rest, encoded =>
    match chunk_index ec i with
    | none => none
    | some ci =>
      match substr_of padded (u32 (usub i first * blocksize)) blocksize with
      | none => none
      | some chunk =>
        prepare_padded_loop ec padded blocksize first rest (map_set encoded ci chunk)

/-- The third loop of `encode_prepare`, over the coding chunks:
`encoded[chunk_index].push_back(buffer::create_aligned(blocksize))`. -/
def prepare_coding_loop (ec : Instance) (junk : Nat → Nat → Byte) (blocksize : Nat) :
    List Nat → ChunkMap → Option ChunkMap
  | [], encoded => some encoded
  | i :: rest, encoded =>
    match chunk_index ec i with
    | none => none
    | some ci =>
      prepare_coding_loop ec junk blocksize rest
        (map_set encoded ci (map_at encoded ci ++ create_aligned (junk (i + 1)) blocksize))

/-- The padded buffer of `encode_prepare`: a fresh allocation of
`padded_chunks * blocksize` bytes that receives the `remainder` real bytes of
`raw` found at `start` and then `pad_len` zero bytes. -/
def prepare_padded_buffer (junk : Nat → Nat → Byte) (raw : bufferlist)
    (blocksize padded_chunks start remainder pad_len : Nat) : Option bufferlist :=
  match copy raw start remainder with
  | none => none
  | some tail =>
    match store_head (create_aligned (junk 0) (u32 (padded_chunks * blocksize))) tail with
    | none => none
    | some buf => zero buf remainder pad_len

/-- `ErasureCode::encode_prepare`: the return code and the final value of
`encoded`.  `raw_is_aligned` is the answer of `raw.is_aligned()` and `junk`
gives the contents of fresh allocations. -/
def encode_prepare (ec : Instance) (junk : Nat → Nat → Byte) (raw_is_aligned : Bool)
    (raw : bufferlist) (encoded : ChunkMap) : Option (Int × ChunkMap) :=
  let k := ec.get_data_chunk_count
  let m := usub ec.get_chunk_count k
  let len := u32 raw.length
  let blocksize := u32 (ec.get_chunk_size len)
  if blocksize = 0 then none
  else
    let pad_len := usub (u32 (blocksize * k)) len
    let padded_chunks := usub k (len / blocksize)
    let full := usub k padded_chunks
    let spliced : Option bufferlist :=
      if raw_is_aligned then some raw
      else if padded_chunks ≠ 0 then
        splice raw (u32 (full * blocksize)) (usub (u32 (padded_chunks * blocksize)) pad_len)
      else some raw
    match spliced with
    | none => none
    | some prepared =>
      match prepare_data_loop ec prepared blocksize (List.range full) encoded with
      | none => none
      | some encoded1 =>
        let padded_part : Option ChunkMap :=
          if padded_chunks ≠ 0 then
            let remainder := usub len (u32 (full * blocksize))
            match prepare_padded_buffer junk raw blocksize padded_chunks
                (u32 (full * blocksize)) remainder pad_len with
            | none => none
            | some padded =>
              prepare_padded_loop ec padded blocksize full (List.range' full (k - full)) encoded1
          else some encoded1
        match padded_part with
        | none => none
        | some encoded2 =>
          match prepare_coding_loop ec junk blocksize (List.range' k (u32 (k + m) - k))
              encoded2 with
          | none => none
          | some encoded3 => some (0, encoded3)

/-- The pruning loop of `encode`: `if (want_to_encode.count(i) == 0)
encoded->erase(i)` for every `i` of the list. -/
def prune (want_to_encode : List Int) : List Nat → ChunkMap → ChunkMap
  | [], encoded => encoded
  | i :: rest, encoded =>
    if want_to_encode.contains (int_of_unsigned i) then prune want_to_encode rest encoded
    else prune want_to_encode rest (map_erase encoded (int_of_unsigned i))

/-- `ErasureCode::encode`: the return code and the final value of `*encoded`.
`encode_chunks` is the strategy of the plugin, which returns a code and the
chunk map it leaves behind, or `none` when it aborts as the default of the base
class does. -/
def encode (ec : Instance) (encode_chunks : List Int → ChunkMap → Option (Int × ChunkMap))
    (junk : Nat → Nat → Byte) (in_is_aligned : Bool)
    (want_to_encode : List Int) (inp : bufferlist) (encoded : ChunkMap) :
    Option (Int × ChunkMap) :=
  let k := ec.get_data_chunk_count
  let m := usub ec.get_chunk_count k
  match encode_prepare ec junk in_is_aligned inp encoded with
  | none => none
  | some (err, encoded1) =>
    if err ≠ 0 then some (err, encoded1)
    else
      match encode_chunks want_to_encode encoded1 with
      | none => none
      | some (_, encoded2) => some (0, prune want_to_encode (List.range (u32 (k + m))) encoded2)

/-- The default `ErasureCode::encode_chunks` of the base class: an assertion
that fails. -/
def encode_chunks_not_implemented (_ : List Int) (_ : ChunkMap) : Option (Int × ChunkMap) := none

/-! ## Decode orchestrator -/

/-- The fast path loop of `decode`:
`(*decoded)[*i] = chunks.find(*i)->second` for every wanted index. -/
def decode_copy_loop (chunks : ChunkMap) : List Int → ChunkMap → Option ChunkMap
  | [], decoded => some decoded
  | i :: rest, decoded =>
    match map_find chunks i with
    | none => none
    | some chunk => decode_copy_loop chunks rest (map_set decoded i chunk)

/-- The slow path loop of `decode`: a fresh page aligned buffer of `blocksize`
bytes is pushed at the front of the chunk of every missing index, every
available chunk is copied. -/
def decode_fill_loop (junk : Nat → Nat → Byte) (chunks : ChunkMap) (blocksize : Nat) :
    List Nat → ChunkMap → ChunkMap
  | [], decoded => decoded
  | i :: rest, decoded =>
    match map_find chunks (int_of_unsigned i) with
    | none =>
      decode_fill_loop junk chunks blocksize rest
        (map_set decoded (int_of_unsigned i) (create_aligned (junk i) blocksize ++ map_at decoded (int_of_unsigned i)))
    | some chunk => decode_fill_loop junk chunks blocksize rest (map_set decoded (int_of_unsigned i) chunk)

/-- `ErasureCode::decode`: the return code and the final value of `*decoded`.
`decode_chunks` is the strategy of the plugin; it receives `want_to_read`, the
available chunks and the prepared map. -/
def decode (ec : Instance)
    (decode_chunks : List Int → ChunkMap → ChunkMap → Option (Int × ChunkMap))
    (junk : Nat → Nat → Byte)
    (want_to_read : List Int) (chunks : ChunkMap) (decoded : ChunkMap) :
    Option (Int × ChunkMap) :=
  let have_ := map_keys chunks
  if includes have_ want_to_read then
    match decode_copy_loop chunks want_to_read decoded with
    | none => none
    | some decoded1 => some (0, decoded1)
  else
    let k := ec.get_data_chunk_count
    let m := usub ec.get_chunk_count k
    match chunks with
    | [] => none
    | (_, first) :: _ =>
      let blocksize := u32 first.length
      decode_chunks want_to_read chunks
        (decode_fill_loop junk chunks blocksize (List.range (u32 (k + m))) decoded)

/-- The default `ErasureCode::decode_chunks` of the base class: an assertion
that fails. -/
def decode_chunks_not_implemented (_ : List Int) (_ _ : ChunkMap) : Option (Int × ChunkMap) :=
  none

/-! ## Concatenation helper -/

/-- The expression `chunk_mapping.size() > i ? chunk_mapping[i] : i` of
`decode_concat`. -/
def concat_index (ec : Instance) (i : Nat) : Int :=
  match ec.chunk_mapping.get? i with
  | some c => c
  | none => int_of_unsigned i

/-- The second loop of `decode_concat`:
`decoded->claim_append(decoded_map[chunk])`, which moves the chunk to the end
of `decoded` and leaves it empty in the map. -/
def concat_loop (ec : Instance) : List Nat → ChunkMap → bufferlist → bufferlist
  | [], _, decoded => decoded
  | i :: rest, decoded_map, decoded =>
    concat_loop ec rest (map_set decoded_map (concat_index ec i) [])
      (decoded ++ map_at decoded_map (concat_index ec i))

/-- `ErasureCode::decode_concat`: the return code and the final value of
`*decoded`. -/
def decode_concat (ec : Instance)
    (decode_chunks : List Int → ChunkMap → ChunkMap → Option (Int × ChunkMap))
    (junk : Nat → Nat → Byte) (chunks : ChunkMap) (decoded : bufferlist) :
    Option (Int × bufferlist) :=
  let data := List.range ec.get_data_chunk_count
  let want_to_read := (data.map (concat_index ec)).foldl set_insert []
  match decode ec decode_chunks junk want_to_read chunks [] with
  | none => none
  | some (r, decoded_map) =>
    if r = 0 then some (r, concat_loop ec data decoded_map decoded) else some (r, decoded)

/-! ## Chunk index mapper -/

/-- A `std::map<std::string, std::string>` of parameters. -/
abbrev Profile := List (String × String)

/-- The bytes of a `std::string`: a `String` of the embedding stands for the
`std::string` that holds its UTF-8 encoding, and the code reads it one `char`,
that is one byte, at a time. -/
def std_bytes (s : String) : List UInt8 := s.data.flatMap String.utf8EncodeChar

/-- The character `'D'`. -/
def char_D : UInt8 := 68

/-- The statement `position++` on an `int`: the next value, undefined when
`position` is `INT_MAX`. -/
def int_increment (position : Int) : Option Int :=
  if position = 2 ^ 31 - 1 then none else some (position + 1)

/-- The loop of `to_mapping` over the characters of the mapping string: the
final values of `chunk_mapping` and `coding_chunk_mapping`.  `position` is the
`int` that counts the characters read so far. -/
def to_mapping_loop : List UInt8 → List Int → List Int → Int → Option (List Int × List Int)
  | [], chunk_mapping, coding_chunk_mapping, _ => some (chunk_mapping, coding_chunk_mapping)
  | c :: rest, chunk_mapping, coding_chunk_mapping, position =>
    if c = char_D then
      match int_increment position with
      | none => none
      | some next => to_mapping_loop rest (chunk_mapping ++ [position]) coding_chunk_mapping next
    else
      match int_increment position with
      | none => none
      | some next => to_mapping_loop rest chunk_mapping (coding_chunk_mapping ++ [position]) next

/-- `ErasureCode::to_mapping`: the return code and the instance it leaves. -/
def to_mapping (ec : Instance) (parameters : Profile) : Option (Int × Instance) :=
  match parameters.lookup "mapping" with
  | some mapping =>
    match to_mapping_loop (std_bytes mapping) ec.chunk_mapping [] 0 with
    | none => none
    | some r => some (0, ⟨ec.k, ec.m, r.1 ++ r.2, ec.get_chunk_size⟩)
  | none => some (0, ec)

/-- The positions of the characters equal to `'D'`, in order of appearance. -/
def data_positions (cs : List UInt8) : List Int :=
  ((List.range cs.length).filter (fun i => decide (cs.get? i = some char_D))).map Int.ofNat

/-- The positions of the characters other than `'D'`, in order of appearance. -/
def coding_positions (cs : List UInt8) : List Int :=
  ((List.range cs.length).filter (fun i => !decide (cs.get? i = some char_D))).map Int.ofNat

/-! ## Minimum-set solver with costs -/

/-- `ErasureCode::minimum_to_decode_with_cost`: the return code and the final
value of `*minimum`.  `available` is a `std::map<int, int>` from chunk index to
cost, an association list with ascending keys. -/
def minimum_to_decode_with_cost (ec : Instance) (want_to_read : List Int)
    (available : List (Int × Int)) (minimum : List Int) : Int × List Int :=
  let available_chunks := (available.map Prod.fst).foldl set_insert []
  minimum_to_decode ec want_to_read available_chunks minimum

/-! ## The layout computed by `encode_prepare` -/

/-- The local `blocksize` of `encode_prepare`: `get_chunk_size(raw.length())`. -/
def encode_prepare_blocksize (ec : Instance) (raw : bufferlist) : Nat :=
  u32 (ec.get_chunk_size (u32 raw.length))

/-- The local `pad_len` of `encode_prepare`: `blocksize * k - raw.length()`. -/
def encode_prepare_pad_len (ec : Instance) (raw : bufferlist) : Nat :=
  usub (u32 (encode_prepare_blocksize ec raw * ec.get_data_chunk_count)) (u32 raw.length)

/-- The local `padded_chunks` of `encode_prepare`:
`k - raw.length() / blocksize`. -/
def encode_prepare_padded_chunks (ec : Instance) (raw : bufferlist) : Nat :=
  usub ec.get_data_chunk_count (u32 raw.length / encode_prepare_blocksize ec raw)

/-- The expression `(k - padded_chunks) * blocksize` of `encode_prepare`: the
offset at which the padded chunks start. -/
def encode_prepare_split (ec : Instance) (raw : bufferlist) : Nat :=
  u32 (usub ec.get_data_chunk_count (encode_prepare_padded_chunks ec raw) *
    encode_prepare_blocksize ec raw)

/-- The local `remainder` of `encode_prepare`:
`raw.length() - (k - padded_chunks) * blocksize`. -/
def encode_prepare_remainder (ec : Instance) (raw : bufferlist) : Nat :=
  usub (u32 raw.length) (encode_prepare_split ec raw)

/-- The size `padded_chunks * blocksize` of the buffer that `encode_prepare`
allocates for the padded chunks. -/
def encode_prepare_padded_size (ec : Instance) (raw : bufferlist) : Nat :=
  u32 (encode_prepare_padded_chunks ec raw * encode_prepare_blocksize ec raw)

/-! ## Parameter coercion -/

/-- The characters that a reader of `p.c_str()` sees: those before the first
NUL. -/
def c_str (p : String) : String := String.mk (p.data.takeWhile (fun c => c ≠ Char.ofNat 0))

/-- `ErasureCode::to_int`: the return code, the final value of `*value` and
the final contents of the stream `*ss`.  `strict_strtol (str, base)` stands for
`strict_strtol(str, base, &err)` of `common/strtol.h`, which is not part of the
sources at hand: it gives the integer returned and the text left in `err`. -/
def to_int (strict_strtol : String → Int → Int × String) (name : String)
    (parameters : Profile) (_value : Int) (default_value : Int) (ss : String) :
    Int × Int × String :=
  match parameters.lookup name with
  | none => (0, default_value, ss)
  | some p =>
    if p.length = 0 then (0, default_value, ss)
    else
      let r := (strict_strtol (c_str p) 10).1
      let err := (strict_strtol (c_str p) 10).2
      if err.length ≠ 0 then
        (-EINVAL_val, default_value,
          ss ++ "could not convert " ++ name ++ "=" ++ p ++ " to int because " ++ err ++
            ", set to default " ++ toString default_value ++ "\n")
      else (0, r, ss)

/-- `ErasureCode::to_bool`: the return code and the final value of `*value`. -/
def to_bool (name : String) (parameters : Profile) (_value : Bool) (default_value : Bool) :
    Int × Bool :=
  match parameters.lookup name with
  | none => (0, default_value)
  | some p =>
    if p.length = 0 then (0, default_value)
    else (0, (p == "yes") || (p == "true"))

end ErasureCode

/-! ## MDSAuthCaps -/

/-- The class `MDSAuthCaps` of `src/mds/MDSAuthCaps.h`: its two members. -/
structure MDSAuthCaps where
  /-- The member `bool write`. -/
  write : Bool
  /-- The member `bool tell`. -/
  tell : Bool
deriving DecidableEq

/-- The constructor `MDSAuthCaps() : write(false), tell(false)`. -/
def MDSAuthCaps.construct : MDSAuthCaps := ⟨false, false⟩

/-- `MDSAuthCaps::parse`: the return code and the object after the call. -/
def MDSAuthCaps.parse (caps : MDSAuthCaps) (str : String) : Int × MDSAuthCaps :=
  if str = "allow" then (0, caps)
  else if str = "allow r" then (0, ⟨false, false⟩)
  else if str = "allow rw" then (0, ⟨true, false⟩)
  else if str = "allow *" then (0, ⟨true, true⟩)
  else (-ErasureCode.EINVAL_val, caps)

/-- `MDSAuthCaps::get_tell`. -/
def MDSAuthCaps.get_tell (caps : MDSAuthCaps) : Bool := caps.tell

namespace ErasureCode

/-! ## The loops of `encode_prepare` as assignments -/

/-- The chunk map after the assignments `encoded[phys i] = val encoded i` for
every `i` of the list, in order: the common shape of the three loops of
`encode_prepare` once the reads of `chunk_mapping` and of the buffers are known
to succeed. -/
def assign_loop (phys : Nat → Int) (val : ChunkMap → Nat → bufferlist) :
    List Nat → ChunkMap → ChunkMap
  | [], encoded => encoded
  | i :: rest, encoded => assign_loop phys val rest (map_set encoded (phys i) (val encoded i))

/-- The object padded with zeros to `blocksize * k` bytes. -/
def padded_object (raw : bufferlist) (blocksize k : Nat) : bufferlist :=
  raw ++ List.replicate (blocksize * k - raw.length) 0

/-- The `i`-th block of `blocksize` bytes of the padded object. -/
def data_chunk (raw : bufferlist) (blocksize k i : Nat) : bufferlist :=
  ((padded_object raw blocksize k).drop (i * blocksize)).take blocksize

/-- The chunk that `encode_prepare` stores for the logical index `i`: a block of
the padded object for a data chunk, a fresh buffer appended to what the map
holds for a coding chunk. -/
def prepared_chunk (ec : Instance) (junk : Nat → Nat → Byte) (raw : bufferlist)
    (encoded : ChunkMap) (i : Nat) : bufferlist :=
  if i < ec.k then data_chunk raw (ec.get_chunk_size raw.length) ec.k i
  else map_at encoded (concat_index ec i) ++
    create_aligned (junk (i + 1)) (ec.get_chunk_size raw.length)

/-- The integers `0, 1, ..., n - 1` as chunk indices. -/
def all_indices (n : Nat) : List Int := (List.range n).map Int.ofNat

theorem includes_sound : ∀ (a b : List Int), includes a b = true → ∀ x ∈ b, x ∈ a
  | _, [], _ => by simp
  | [], _ :: _, h => by simp [includes] at h
  | x :: xs, y :: ys, h => by
    unfold includes at h
    split_ifs at h with h1 h2
    · intro z hz
      exact List.mem_cons_of_mem _ (includes_sound xs (y :: ys) h z hz)
    · have hxy : x = y := by omega
      intro z hz
      rcases List.mem_cons.1 hz with rfl | hz
      · simp [hxy]
      · exact List.mem_cons_of_mem _ (includes_sound xs ys h z hz)

theorem includes_complete : ∀ (a b : List Int), a.Sorted (· < ·) → b.Sorted (· < ·) →
    (∀ x ∈ b, x ∈ a) → includes a b = true
  | _, [], _, _, _ => by cases ‹List Int› <;> simp [includes]
  | [], y :: _, _, _, h => by simpa using h y (by simp)
  | x :: xs, y :: ys, ha, hb, h => by
    have hx : ∀ z ∈ xs, x < z := (List.sorted_cons.1 ha).1
    have hy : ∀ z ∈ ys, y < z := (List.sorted_cons.1 hb).1
    have hxy : x ≤ y := by
      rcases List.mem_cons.1 (h y (by simp)) with e | e
      · omega
      · exact le_of_lt (hx y e)
    unfold includes
    rw [if_neg (by omega)]
    split_ifs with h2
    · apply includes_complete xs (y :: ys) (List.sorted_cons.1 ha).2 hb
      intro z hz
      have hz2 : y ≤ z := by
        rcases List.mem_cons.1 hz with e | e
        · omega
        · exact le_of_lt (hy z e)
      rcases List.mem_cons.1 (h z hz) with e | e
      · omega
      · exact e
    · apply includes_complete xs ys (List.sorted_cons.1 ha).2 (List.sorted_cons.1 hb).2
      intro z hz
      have hz2 : y < z := hy z hz
      rcases List.mem_cons.1 (h z (List.mem_cons_of_mem _ hz)) with e | e
      · omega
      · exact e

theorem set_insert_append (acc : List Int) (x : Int) (h : ∀ y ∈ acc, y < x) :
    set_insert acc x = acc ++ [x] := by
  induction acc with
  | nil => rfl
  | cons y ys ih =>
    have hy : y < x := h y (by simp)
    simp only [set_insert, List.cons_append]
    rw [if_neg (by omega), if_neg (by omega), ih (fun z hz => h z (List.mem_cons_of_mem _ hz))]

theorem foldl_set_insert_sorted (l acc : List Int) (h : (acc ++ l).Sorted (· < ·)) :
    l.foldl set_insert acc = acc ++ l := by
  induction l generalizing acc with
  | nil => simp
  | cons x xs ih =>
    have hx : ∀ y ∈ acc, y < x := by
      intro y hy
      exact (List.pairwise_append.1 h).2.2 y hy x (by simp)
    simp only [List.foldl_cons]
    rw [set_insert_append acc x hx, ih (acc ++ [x]) (by simpa using h)]
    simp

/-! ## Lemmas on machine integers -/

theorem u32_of_lt (x : Nat) (h : x < 2 ^ 32) : u32 x = x := Nat.mod_eq_of_lt h

theorem usub_of_le (a b : Nat) (hb : b ≤ a) (ha : a < 2 ^ 32) : usub a b = a - b := by
  unfold usub
  omega

theorem int_of_unsigned_of_lt (i : Nat) (h : i < 2 ^ 31) : int_of_unsigned i = (i : Int) := by
  unfold int_of_unsigned
  have h1 : i % 2 ^ 32 = i := Nat.mod_eq_of_lt (by omega)
  rw [h1, if_pos h]

theorem u32_add_usub (ec : Instance) :
    u32 (ec.get_data_chunk_count + usub ec.get_chunk_count ec.get_data_chunk_count) =
      ec.get_chunk_count := by
  unfold Instance.get_data_chunk_count Instance.get_chunk_count u32 usub
  omega

/-! ## Lemmas on chunk maps -/

theorem sorted_eq_of_mem_iff (a b : List Int) (ha : a.Sorted (· < ·)) (hb : b.Sorted (· < ·))
    (h : ∀ x, x ∈ a ↔ x ∈ b) : a = b :=
  List.eq_of_perm_of_sorted ((List.perm_ext_iff_of_nodup ha.nodup hb.nodup).2 h) ha hb

theorem map_find_set (m : ChunkMap) (i j : Int) (v : bufferlist) :
    map_find (map_set m i v) j = if j = i then some v else map_find m j := by
  induction m with
  | nil => simp [map_set, map_find]
  | cons p rest ih =>
    obtain ⟨q, w⟩ := p
    by_cases hji : j = i
    · subst hji
      simp only [if_true] at ih ⊢
      unfold map_set
      by_cases h1 : j < q
      · simp [h1, map_find]
      · by_cases h2 : j = q
        · simp [h2, map_find]
        · simp [h1, h2, map_find, ih]
    · simp only [hji, if_false] at ih ⊢
      unfold map_set
      by_cases h1 : i < q
      · simp [h1, map_find, hji]
      · by_cases h2 : i = q
        · subst h2
          simp [map_find, hji]
        · simp [h1, h2, map_find, ih]

theorem mem_map_keys_iff (m : ChunkMap) (j : Int) : j ∈ map_keys m ↔ map_find m j ≠ none := by
  induction m with
  | nil => simp [map_keys, map_find]
  | cons p rest ih =>
    obtain ⟨q, w⟩ := p
    unfold map_keys at ih ⊢
    unfold map_find
    by_cases h : j = q
    · simp [h]
    · simp [h, ih]

theorem mem_map_keys_set (m : ChunkMap) (i j : Int) (v : bufferlist) :
    j ∈ map_keys (map_set m i v) ↔ j = i ∨ j ∈ map_keys m := by
  rw [mem_map_keys_iff, mem_map_keys_iff, map_find_set]
  by_cases h : j = i <;> simp [h]

theorem map_keys_set_sorted (m : ChunkMap) (i : Int) (v : bufferlist)
    (h : (map_keys m).Sorted (· < ·)) : (map_keys (map_set m i v)).Sorted (· < ·) := by
  induction m with
  | nil => simp [map_set, map_keys]
  | cons p rest ih =>
    obtain ⟨q, w⟩ := p
    have hq : ∀ b ∈ map_keys rest, q < b := (List.sorted_cons.1 h).1
    have hrest : (map_keys rest).Sorted (· < ·) := (List.sorted_cons.1 h).2
    unfold map_set
    split_ifs with h1 h2
    · refine List.sorted_cons.2 ⟨?_, h⟩
      intro b hb
      rcases List.mem_cons.1 hb with e | e
      · rw [e]
        exact h1
      · exact lt_trans h1 (hq b e)
    · subst h2
      exact h
    · refine List.sorted_cons.2 ⟨?_, ih hrest⟩
      intro b hb
      rcases (mem_map_keys_set rest i b v).1 hb with e | e
      · rw [e]
        omega
      · exact hq b e

theorem map_find_erase (m : ChunkMap) (i j : Int) :
    map_find (map_erase m i) j = if j = i then none else map_find m j := by
  induction m with
  | nil => simp [map_erase, map_find]
  | cons p rest ih =>
    obtain ⟨q, w⟩ := p
    by_cases hji : j = i
    · subst hji
      simp only [if_true] at ih ⊢
      unfold map_erase
      by_cases h2 : j = q
      · simp [h2, ih]
        simpa [h2] using ih
      · simp [h2, map_find, ih]
    · simp only [hji, if_false] at ih ⊢
      unfold map_erase
      by_cases h2 : i = q
      · subst h2
        simp [map_find, hji, ih]
      · simp [h2, map_find, ih]

theorem mem_map_keys_erase (m : ChunkMap) (i j : Int) :
    j ∈ map_keys (map_erase m i) ↔ j ≠ i ∧ j ∈ map_keys m := by
  rw [mem_map_keys_iff, mem_map_keys_iff, map_find_erase]
  by_cases h : j = i <;> simp [h]

theorem map_keys_erase_sorted (m : ChunkMap) (i : Int)
    (h : (map_keys m).Sorted (· < ·)) : (map_keys (map_erase m i)).Sorted (· < ·) := by
  induction m with
  | nil => simp [map_erase, map_keys]
  | cons p rest ih =>
    obtain ⟨q, w⟩ := p
    have hq : ∀ b ∈ map_keys rest, q < b := (List.sorted_cons.1 h).1
    have hrest : (map_keys rest).Sorted (· < ·) := (List.sorted_cons.1 h).2
    unfold map_erase
    split_ifs with h1
    · exact ih hrest
    · refine List.sorted_cons.2 ⟨?_, ih hrest⟩
      intro b hb
      exact hq b ((mem_map_keys_erase rest i b).1 hb).2

/-! ## Lemmas on `assign_loop` -/

theorem assign_loop_append (phys : Nat → Int) (val : ChunkMap → Nat → bufferlist)
    (l1 l2 : List Nat) (e : ChunkMap) :
    assign_loop phys val (l1 ++ l2) e = assign_loop phys val l2 (assign_loop phys val l1 e) := by
  induction l1 generalizing e with
  | nil => rfl
  | cons a rest ih =>
    rw [List.cons_append]
    exact ih _

theorem assign_loop_congr (phys : Nat → Int) (val val2 : ChunkMap → Nat → bufferlist)
    (l : List Nat) (e : ChunkMap) (h : ∀ i ∈ l, ∀ e2, val e2 i = val2 e2 i) :
    assign_loop phys val l e = assign_loop phys val2 l e := by
  induction l generalizing e with
  | nil => rfl
  | cons a rest ih =>
    simp only [assign_loop]
    rw [h a (by simp) e, ih _ (fun i hi => h i (List.mem_cons_of_mem _ hi))]

theorem mem_map_keys_assign_loop (phys : Nat → Int) (val : ChunkMap → Nat → bufferlist)
    (l : List Nat) (e : ChunkMap) (j : Int) :
    j ∈ map_keys (assign_loop phys val l e) ↔ j ∈ map_keys e ∨ ∃ i ∈ l, phys i = j := by
  induction l generalizing e with
  | nil => simp [assign_loop]
  | cons a rest ih =>
    simp only [assign_loop]
    rw [ih, mem_map_keys_set]
    constructor
    · rintro ((h | h) | ⟨i, hi, h⟩)
      · exact Or.inr ⟨a, by simp, h.symm⟩
      · exact Or.inl h
      · exact Or.inr ⟨i, List.mem_cons_of_mem _ hi, h⟩
    · rintro (h | ⟨i, hi, h⟩)
      · exact Or.inl (Or.inr h)
      · rcases List.mem_cons.1 hi with e1 | e1
        · subst e1
          exact Or.inl (Or.inl h.symm)
        · exact Or.inr ⟨i, e1, h⟩

theorem map_keys_assign_loop_sorted (phys : Nat → Int) (val : ChunkMap → Nat → bufferlist)
    (l : List Nat) (e : ChunkMap) (h : (map_keys e).Sorted (· < ·)) :
    (map_keys (assign_loop phys val l e)).Sorted (· < ·) := by
  induction l generalizing e with
  | nil => exact h
  | cons a rest ih => exact ih _ (map_keys_set_sorted e _ _ h)

theorem map_find_assign_loop_other (phys : Nat → Int) (val : ChunkMap → Nat → bufferlist)
    (l : List Nat) (e : ChunkMap) (j : Int) (h : ∀ i ∈ l, phys i ≠ j) :
    map_find (assign_loop phys val l e) j = map_find e j := by
  induction l generalizing e with
  | nil => rfl
  | cons a rest ih =>
    simp only [assign_loop]
    rw [ih _ (fun i hi => h i (List.mem_cons_of_mem _ hi)), map_find_set,
      if_neg (fun e1 => h a (by simp) e1.symm)]

theorem map_find_assign_loop_mem (phys : Nat → Int) (val : ChunkMap → Nat → bufferlist)
    (l : List Nat) (e : ChunkMap) (i : Nat) (v : bufferlist)
    (hv : ∀ e2, val e2 i = v) (hinj : ∀ a ∈ l, phys a = phys i → a = i) :
    map_find (assign_loop phys val l e) (phys i) =
      if i ∈ l then some v else map_find e (phys i) := by
  induction l generalizing e with
  | nil => simp [assign_loop]
  | cons a rest ih =>
    simp only [assign_loop]
    rw [ih _ (fun b hb => hinj b (List.mem_cons_of_mem _ hb)), map_find_set]
    by_cases hr : i ∈ rest
    · simp [hr]
    · by_cases ha : phys i = phys a
      · have hai : a = i := hinj a (by simp) ha.symm
        subst hai
        simp [hv]
      · have hia : ¬ i = a := fun e1 => ha (by rw [e1])
        simp [hr, ha, hia]

theorem map_find_assign_loop_fresh (phys : Nat → Int) (val : ChunkMap → Nat → bufferlist)
    (l : List Nat) (e : ChunkMap) (i : Nat) (v : bufferlist)
    (hv : ∀ e2, map_find e2 (phys i) = none → val e2 i = v)
    (hnd : l.Nodup) (hinj : ∀ a ∈ l, phys a = phys i → a = i) (hi : i ∈ l)
    (hfresh : map_find e (phys i) = none) :
    map_find (assign_loop phys val l e) (phys i) = some v := by
  induction l generalizing e with
  | nil => simp at hi
  | cons a rest ih =>
    simp only [assign_loop]
    have hnd2 := List.nodup_cons.1 hnd
    by_cases hai : a = i
    · subst hai
      rw [map_find_assign_loop_other, map_find_set, if_pos rfl, hv e hfresh]
      intro b hb hpb
      have : b = a := hinj b (List.mem_cons_of_mem _ hb) hpb
      exact hnd2.1 (this ▸ hb)
    · have hir : i ∈ rest := by
        rcases List.mem_cons.1 hi with e1 | e1
        · exact absurd e1.symm hai
        · exact e1
      apply ih _ hnd2.2 (fun b hb => hinj b (List.mem_cons_of_mem _ hb)) hir
      rw [map_find_set, if_neg, hfresh]
      intro hp
      exact hai (hinj a (by simp) hp.symm)

/-! ## Lemmas on the chunk mapping -/

theorem mem_all_indices (n : Nat) (j : Int) : j ∈ all_indices n ↔ 0 ≤ j ∧ j < n := by
  unfold all_indices
  rw [List.mem_map]
  constructor
  · rintro ⟨i, hi, rfl⟩
    have := List.mem_range.1 hi
    exact ⟨Int.ofNat_nonneg i, by simpa using this⟩
  · rintro ⟨h0, hn⟩
    exact ⟨j.toNat, List.mem_range.2 (by omega), by simp [Int.toNat_of_nonneg h0]⟩

theorem all_indices_sorted (n : Nat) : (all_indices n).Sorted (· < ·) := by
  unfold all_indices
  exact (List.sorted_lt_range n).map Int.ofNat (fun a b hab => by simpa using hab)

theorem concat_index_of_lt (ec : Instance) (i : Nat) (h : i < ec.chunk_mapping.length) :
    concat_index ec i = ec.chunk_mapping[i] := by
  unfold concat_index
  rw [List.get?_eq_getElem?, List.getElem?_eq_getElem h]

theorem concat_index_of_nil (ec : Instance) (i : Nat) (h : ec.chunk_mapping = []) :
    concat_index ec i = int_of_unsigned i := by
  unfold concat_index
  rw [h]
  rfl

theorem chunk_index_eq (ec : Instance) (i : Nat)
    (hmap : ec.chunk_mapping = [] ∨ List.Perm ec.chunk_mapping (all_indices (ec.k + ec.m)))
    (hi : i < ec.k + ec.m) : chunk_index ec i = some (concat_index ec i) := by
  rcases hmap with h | h
  · unfold chunk_index
    rw [concat_index_of_nil ec i h, h]
    rfl
  · have hlen : ec.chunk_mapping.length = ec.k + ec.m := by
      simpa [all_indices] using h.length_eq
    unfold chunk_index
    rw [if_pos (by omega), concat_index_of_lt ec i (by omega), List.get?_eq_getElem?,
      List.getElem?_eq_getElem]

theorem concat_index_inj (ec : Instance) (a b : Nat)
    (hmap : ec.chunk_mapping = [] ∨ List.Perm ec.chunk_mapping (all_indices (ec.k + ec.m)))
    (hkm : ec.k + ec.m < 2 ^ 31) (ha : a < ec.k + ec.m) (hb : b < ec.k + ec.m)
    (h : concat_index ec a = concat_index ec b) : a = b := by
  rcases hmap with h1 | h1
  · rw [concat_index_of_nil ec a h1, concat_index_of_nil ec b h1,
      int_of_unsigned_of_lt a (by omega), int_of_unsigned_of_lt b (by omega)] at h
    exact Int.ofNat_injective h
  · have hlen : ec.chunk_mapping.length = ec.k + ec.m := by
      simpa [all_indices] using h1.length_eq
    have hnd : ec.chunk_mapping.Nodup := h1.nodup_iff.2 (all_indices_sorted _).nodup
    rw [concat_index_of_lt ec a (by omega), concat_index_of_lt ec b (by omega)] at h
    exact (hnd.getElem_inj_iff).1 h

theorem concat_index_range (ec : Instance) (j : Int)
    (hmap : ec.chunk_mapping = [] ∨ List.Perm ec.chunk_mapping (all_indices (ec.k + ec.m)))
    (hkm : ec.k + ec.m < 2 ^ 31) :
    (∃ i, i < ec.k + ec.m ∧ concat_index ec i = j) ↔ j ∈ all_indices (ec.k + ec.m) := by
  rcases hmap with h1 | h1
  · rw [mem_all_indices]
    constructor
    · rintro ⟨i, hi, rfl⟩
      rw [concat_index_of_nil ec i h1, int_of_unsigned_of_lt i (by omega)]
      exact ⟨Int.ofNat_nonneg i, by exact_mod_cast hi⟩
    · rintro ⟨h0, hn⟩
      refine ⟨j.toNat, by omega, ?_⟩
      rw [concat_index_of_nil ec _ h1, int_of_unsigned_of_lt _ (by omega)]
      simp [Int.toNat_of_nonneg h0]
  · have hlen : ec.chunk_mapping.length = ec.k + ec.m := by
      simpa [all_indices] using h1.length_eq
    rw [← h1.mem_iff, List.mem_iff_getElem]
    constructor
    · rintro ⟨i, hi, rfl⟩
      exact ⟨i, by omega, (concat_index_of_lt ec i (by omega)).symm⟩
    · rintro ⟨i, hi, rfl⟩
      exact ⟨i, by omega, concat_index_of_lt ec i hi⟩

/-! ## Lemmas on buffers -/

theorem padded_object_length (raw : bufferlist) (bs k : Nat) (h : raw.length ≤ bs * k) :
    (padded_object raw bs k).length = bs * k := by
  unfold padded_object
  rw [List.length_append, List.length_replicate]
  omega

theorem substr_of_prefix (X Y : bufferlist) (n b : Nat) (h : n + b ≤ X.length) :
    substr_of X n b = some (((X ++ Y).drop n).take b) := by
  unfold substr_of
  rw [if_pos h, List.drop_append_of_le_length (by omega),
    List.take_append_of_le_length (by rw [List.length_drop]; omega)]

theorem substr_of_drop (Z : bufferlist) (s n b : Nat) (h : s + n + b ≤ Z.length) :
    substr_of (Z.drop s) n b = some ((Z.drop (s + n)).take b) := by
  unfold substr_of
  rw [if_pos (by rw [List.length_drop]; omega), List.drop_drop]

theorem create_aligned_length (junk : Nat → Byte) (n : Nat) :
    (create_aligned junk n).length = n := by
  simp [create_aligned]

theorem prepare_padded_buffer_eq (junk : Nat → Nat → Byte) (raw : bufferlist)
    (bs pc start r pad : Nat) (h1 : start + r = raw.length) (h2 : r + pad = pc * bs)
    (h3 : pc * bs < 2 ^ 32) :
    prepare_padded_buffer junk raw bs pc start r pad =
      some (raw.drop start ++ List.replicate pad 0) := by
  have hcopy : copy raw start r = some (raw.drop start) := by
    unfold copy
    rw [if_pos (by omega), List.take_of_length_le (by rw [List.length_drop]; omega)]
  have hlen : (raw.drop start).length = r := by
    rw [List.length_drop]
    omega
  unfold prepare_padded_buffer
  rw [hcopy, u32_of_lt _ h3]
  generalize raw.drop start = tail at hlen ⊢
  generalize hb : create_aligned (junk 0) (pc * bs) = buf
  have hbl : buf.length = pc * bs := by rw [← hb, create_aligned_length]
  have hs : store_head buf tail = some (tail ++ buf.drop tail.length) := by
    unfold store_head
    rw [if_pos (by omega)]
  have hl2 : (tail ++ buf.drop tail.length).length = pc * bs := by
    rw [List.length_append, List.length_drop]
    omega
  have hz : zero (tail ++ buf.drop tail.length) r pad = some (tail ++ List.replicate pad 0) := by
    unfold zero
    rw [if_pos (by omega), List.take_append_of_le_length (by omega),
      List.take_of_length_le (by omega), List.drop_of_length_le (by omega)]
    simp
  simp only [hs, hz]

/-! ## The loops of `encode_prepare` -/

theorem prepare_data_loop_eq (ec : Instance) (prepared : bufferlist) (bs : Nat)
    (val : Nat → bufferlist) (l : List Nat) (e : ChunkMap)
    (hidx : ∀ i ∈ l, chunk_index ec i = some (concat_index ec i))
    (hsub : ∀ i ∈ l, substr_of prepared (u32 (i * bs)) bs = some (val i)) :
    prepare_data_loop ec prepared bs l e =
      some (assign_loop (concat_index ec) (fun _ i => val i) l e) := by
  induction l generalizing e with
  | nil => rfl
  | cons a rest ih =>
    simp only [prepare_data_loop, assign_loop, hidx a (by simp), hsub a (by simp)]
    exact ih _ (fun i hi => hidx i (List.mem_cons_of_mem _ hi))
      (fun i hi => hsub i (List.mem_cons_of_mem _ hi))

theorem prepare_padded_loop_eq (ec : Instance) (padded : bufferlist) (bs first : Nat)
    (val : Nat → bufferlist) (l : List Nat) (e : ChunkMap)
    (hidx : ∀ i ∈ l, chunk_index ec i = some (concat_index ec i))
    (hsub : ∀ i ∈ l, substr_of padded (u32 (usub i first * bs)) bs = some (val i)) :
    prepare_padded_loop ec padded bs first l e =
      some (assign_loop (concat_index ec) (fun _ i => val i) l e) := by
  induction l generalizing e with
  | nil => rfl
  | cons a rest ih =>
    simp only [prepare_padded_loop, assign_loop, hidx a (by simp), hsub a (by simp)]
    exact ih _ (fun i hi => hidx i (List.mem_cons_of_mem _ hi))
      (fun i hi => hsub i (List.mem_cons_of_mem _ hi))

theorem prepare_coding_loop_eq (ec : Instance) (junk : Nat → Nat → Byte) (bs : Nat)
    (l : List Nat) (e : ChunkMap)
    (hidx : ∀ i ∈ l, chunk_index ec i = some (concat_index ec i)) :
    prepare_coding_loop ec junk bs l e =
      some (assign_loop (concat_index ec)
        (fun e2 i => map_at e2 (concat_index ec i) ++ create_aligned (junk (i + 1)) bs) l e) := by
  induction l generalizing e with
  | nil => rfl
  | cons a rest ih =>
    simp only [prepare_coding_loop, assign_loop, hidx a (by simp)]
    exact ih _ (fun i hi => hidx i (List.mem_cons_of_mem _ hi))

/-! ## The minimum-set solver -/

theorem includes_eq_false (a b : List Int) (h : ¬ ∀ x ∈ b, x ∈ a) : includes a b = false := by
  cases hi : includes a b with
  | false => rfl
  | true => exact absurd (includes_sound a b hi) h

/-- C3: when every wanted index is available, `minimum_to_decode` returns 0 and
the minimum set is exactly `want_to_read`, whatever the number of data chunks,
the number of available chunks and the initial value of the minimum set. -/
theorem minimum_to_decode_of_subset (ec : Instance) (want_to_read available minimum : List Int)
    (hw : want_to_read.Sorted (· < ·)) (ha : available.Sorted (· < ·))
    (hsub : ∀ x ∈ want_to_read, x ∈ available) :
    minimum_to_decode ec want_to_read available minimum = (0, want_to_read) := by
  unfold minimum_to_decode
  rw [includes_complete available want_to_read ha hw hsub]
  rfl

theorem minimum_to_decode_of_subset_witness :
    ([1, 4] : List Int).Sorted (· < ·) ∧ ([0, 1, 4] : List Int).Sorted (· < ·) ∧
    (∀ x ∈ ([1, 4] : List Int), x ∈ ([0, 1, 4] : List Int)) ∧
    minimum_to_decode ⟨4, 2, [], fun _ => 1⟩ [1, 4] [0, 1, 4] [7] = (0, [1, 4]) :=
  ⟨by decide, by decide, by decide,
    minimum_to_decode_of_subset ⟨4, 2, [], fun _ => 1⟩ [1, 4] [0, 1, 4] [7]
      (by decide) (by decide) (by decide)⟩

/-- C4: when some wanted index is not available, at least `k` chunks are
available and the minimum set starts empty, `minimum_to_decode` returns 0 and
the minimum set is made of the `k` smallest available indices: it is the first
`k` members of the available set, has `k` members, all of them available, and
each of them is smaller than every available index that is left out. -/
theorem minimum_to_decode_first_k (ec : Instance) (want_to_read available : List Int)
    (ha : available.Sorted (· < ·)) (hmiss : ¬ ∀ x ∈ want_to_read, x ∈ available)
    (hk : ec.get_data_chunk_count ≤ available.length) :
    (minimum_to_decode ec want_to_read available []).1 = 0 ∧
    (minimum_to_decode ec want_to_read available []).2 =
      available.take ec.get_data_chunk_count ∧
    (minimum_to_decode ec want_to_read available []).2.length = ec.get_data_chunk_count ∧
    (∀ x ∈ (minimum_to_decode ec want_to_read available []).2, x ∈ available) ∧
    (∀ x ∈ (minimum_to_decode ec want_to_read available []).2, ∀ y ∈ available,
      y ∉ (minimum_to_decode ec want_to_read available []).2 → x < y) := by
  have hr : minimum_to_decode ec want_to_read available [] =
      (0, available.take ec.get_data_chunk_count) := by
    unfold minimum_to_decode
    rw [includes_eq_false available want_to_read hmiss]
    simp only [Bool.false_eq_true, if_false]
    rw [if_neg (by omega)]
    rw [foldl_set_insert_sorted _ [] (by simpa using ha.sublist (List.take_sublist _ _))]
    simp
  rw [hr]
  refine ⟨rfl, rfl, ?_, ?_, ?_⟩
  · simpa using hk
  · intro x hx
    exact List.mem_of_mem_take hx
  · intro x hx y hy hny
    have hsplit := List.take_append_drop ec.get_data_chunk_count available
    have hy2 : y ∈ available.drop ec.get_data_chunk_count := by
      rw [← hsplit] at hy
      rcases List.mem_append.1 hy with h | h
      · exact absurd h hny
      · exact h
    rw [← hsplit] at ha
    exact (List.pairwise_append.1 ha).2.2 x hx y hy2

theorem minimum_to_decode_first_k_witness :
    ([1, 2, 5] : List Int).Sorted (· < ·) ∧
    (¬ ∀ x ∈ ([0] : List Int), x ∈ ([1, 2, 5] : List Int)) ∧
    Instance.get_data_chunk_count ⟨2, 2, [], fun _ => 1⟩ ≤ ([1, 2, 5] : List Int).length ∧
    (minimum_to_decode ⟨2, 2, [], fun _ => 1⟩ [0] [1, 2, 5] []).2 = [1, 2] :=
  ⟨by decide, by decide, by decide,
    (minimum_to_decode_first_k ⟨2, 2, [], fun _ => 1⟩ [0] [1, 2, 5]
      (by decide) (by decide) (by decide)).2.1⟩

/-- C5, as stated, fails: with `k = 2`, chunk 0 wanted and chunk 0 alone
available, fewer than `k` chunks are available and `minimum_to_decode` returns
0 with the minimum set `{0}`, not `-EIO`. -/
theorem minimum_to_decode_few_available_no_error :
    ([0] : List Int).length < Instance.get_data_chunk_count ⟨2, 1, [], fun _ => 1⟩ ∧
    minimum_to_decode ⟨2, 1, [], fun _ => 1⟩ [0] [0] [] = (0, [0]) ∧
    (minimum_to_decode ⟨2, 1, [], fun _ => 1⟩ [0] [0] []).1 ≠ -EIO_val := by
  decide

/-- C5, amended: when some wanted index is not available and fewer than `k`
chunks are available, `minimum_to_decode` fails with `-EIO` and leaves the
minimum set as it was. -/
theorem minimum_to_decode_insufficient (ec : Instance)
    (want_to_read available minimum : List Int)
    (hmiss : ¬ ∀ x ∈ want_to_read, x ∈ available)
    (hlt : available.length < ec.get_data_chunk_count) :
    minimum_to_decode ec want_to_read available minimum = (-EIO_val, minimum) := by
  unfold minimum_to_decode
  rw [includes_eq_false available want_to_read hmiss]
  simp only [Bool.false_eq_true, if_false]
  rw [if_pos hlt]

theorem minimum_to_decode_insufficient_witness :
    (¬ ∀ x ∈ ([0, 1] : List Int), x ∈ ([1] : List Int)) ∧
    ([1] : List Int).length < Instance.get_data_chunk_count ⟨2, 1, [], fun _ => 1⟩ ∧
    minimum_to_decode ⟨2, 1, [], fun _ => 1⟩ [0, 1] [1] [] = (-5, []) :=
  ⟨by decide, by decide,
    minimum_to_decode_insufficient ⟨2, 1, [], fun _ => 1⟩ [0, 1] [1] [] (by decide) (by decide)⟩

/-! ## The chunk index mapper -/

theorem to_mapping_loop_eq (cs : List UInt8) (cm cd : List Int) (p : Int)
    (h : p + (cs.length : Int) < 2 ^ 31) :
    to_mapping_loop cs cm cd p =
      some (cm ++ ((List.range cs.length).filter
          (fun i => decide (cs.get? i = some char_D))).map (fun i : Nat => p + (i : Int)),
        cd ++ ((List.range cs.length).filter
          (fun i => !decide (cs.get? i = some char_D))).map (fun i : Nat => p + (i : Int))) := by
  induction cs generalizing cm cd p with
  | nil => simp [to_mapping_loop]
  | cons c rest ih =>
    have hshift : ∀ q : List ℕ, List.map ((fun i : ℕ => p + (i : Int)) ∘ Nat.succ) q =
        List.map (fun i : ℕ => p + 1 + (i : Int)) q := by
      intro q
      apply List.map_congr_left
      intro i _
      simp only [Function.comp, Nat.succ_eq_add_one]
      push_cast
      ring
    have hf1 : ((fun i : ℕ => decide ((c :: rest).get? i = some char_D)) ∘ Nat.succ) =
        fun i : ℕ => decide (rest.get? i = some char_D) := by
      funext i
      simp
    have hf2 : ((fun i : ℕ => !decide ((c :: rest).get? i = some char_D)) ∘ Nat.succ) =
        fun i : ℕ => !decide (rest.get? i = some char_D) := by
      funext i
      simp
    rw [List.length_cons] at h
    push_cast at h
    have hinc : int_increment p = some (p + 1) := by
      unfold int_increment
      rw [if_neg (by omega)]
    unfold to_mapping_loop
    rw [hinc, List.length_cons, List.range_succ_eq_map, List.filter_cons, List.filter_cons,
      List.filter_map, List.filter_map, hf1, hf2]
    by_cases hc : c = char_D
    · subst hc
      rw [if_pos rfl]
      simp only
      rw [ih _ _ _ (by omega)]
      simp [Function.comp, List.map_map, hshift]
    · rw [if_neg hc]
      simp only
      rw [ih _ _ _ (by omega)]
      simp [Function.comp, List.map_map, hshift, hc]

theorem to_mapping_loop_fresh (cs : List UInt8) (h : cs.length < 2 ^ 31) :
    to_mapping_loop cs [] [] 0 = some (data_positions cs, coding_positions cs) := by
  rw [to_mapping_loop_eq cs [] [] 0 (by omega)]
  simp only [List.nil_append, zero_add]
  rfl

theorem to_mapping_loop_replicate (n : Nat) (c : UInt8) (cm cd : List Int) (p : Int)
    (hp : p ≤ 2 ^ 31 - 1) (hn : 2 ^ 31 ≤ p + (n : Int)) :
    to_mapping_loop (List.replicate n c) cm cd p = none := by
  induction n generalizing cm cd p with
  | zero =>
    exfalso
    push_cast at hn
    omega
  | succ n ih =>
    push_cast at hn
    rw [List.replicate_succ]
    unfold to_mapping_loop
    by_cases hmax : p = 2 ^ 31 - 1
    · have hinc : int_increment p = none := by
        unfold int_increment
        rw [if_pos hmax]
      rw [hinc]
      split_ifs <;> rfl
    · have hinc : int_increment p = some (p + 1) := by
        unfold int_increment
        rw [if_neg hmax]
      rw [hinc]
      split_ifs
      · exact ih _ _ _ (by omega) (by omega)
      · exact ih _ _ _ (by omega) (by omega)

theorem std_bytes_replicate (n : Nat) (c : Char) (b : UInt8)
    (h : String.utf8EncodeChar c = [b]) :
    std_bytes (String.mk (List.replicate n c)) = List.replicate n b := by
  unfold std_bytes
  induction n with
  | zero => rfl
  | succ n ih =>
    rw [List.replicate_succ, List.replicate_succ, List.flatMap_cons, h]
    exact congrArg (List.cons b) ih

theorem lookup_mapping_single (s : String) :
    List.lookup "mapping" ([("mapping", s)] : Profile) = some s := by
  simp [List.lookup]

theorem to_mapping_long_string (ec : Instance) (n : Nat) (c : Char) (b : UInt8)
    (h : String.utf8EncodeChar c = [b]) (hn : 2 ^ 31 ≤ n) :
    to_mapping ec [("mapping", String.mk (List.replicate n c))] = none := by
  unfold to_mapping
  rw [lookup_mapping_single]
  simp only
  rw [std_bytes_replicate n c b h, to_mapping_loop_replicate n b _ _ 0 (by omega) (by omega)]

theorem positions_perm (cs : List UInt8) :
    List.Perm (data_positions cs ++ coding_positions cs) (all_indices cs.length) := by
  unfold data_positions coding_positions all_indices
  rw [← List.map_append]
  exact (List.filter_append_perm _ _).map _

/-- C9, as stated, fails: for the mapping string made of `2 ^ 31 + 1`
characters `'D'` the increment of the `int position` past `2 ^ 31 - 1` is
undefined (on a machine that wraps, the last character gets the position
`-2 ^ 31`, not `2 ^ 31`), so `to_mapping` does not return 0 with the positions
of the characters. -/
theorem to_mapping_position_overflows :
    to_mapping ⟨3, 2, [], fun _ => 1⟩
      [("mapping", String.mk (List.replicate (2 ^ 31 + 1) 'D'))] = none :=
  to_mapping_long_string _ _ 'D' 68 (by decide) (by omega)

/-- C9, amended with the bound that the `int position` imposes: for every
mapping string of fewer than `2 ^ 31` characters (bytes), also one that is not
text, `to_mapping` on a fresh instance returns 0 and sets `chunk_mapping` to
the positions of the characters equal to `'D'`, in order, followed by the
positions of the other characters, in order; when the `"mapping"` key is
absent it returns 0 and `chunk_mapping` stays empty. -/
theorem to_mapping_positions (k m : Nat) (gcs : Nat → Nat) (parameters : Profile) :
    (∀ cs : List UInt8, cs.length < 2 ^ 31 →
      to_mapping_loop cs [] [] 0 = some (data_positions cs, coding_positions cs)) ∧
    (∀ s : String, parameters.lookup "mapping" = some s → (std_bytes s).length < 2 ^ 31 →
      to_mapping ⟨k, m, [], gcs⟩ parameters =
        some (0, ⟨k, m, data_positions (std_bytes s) ++ coding_positions (std_bytes s), gcs⟩)) ∧
    (parameters.lookup "mapping" = none →
      to_mapping ⟨k, m, [], gcs⟩ parameters = some (0, ⟨k, m, [], gcs⟩)) := by
  refine ⟨to_mapping_loop_fresh, ?_, ?_⟩
  · intro s hs hlen
    unfold to_mapping
    rw [hs]
    simp only
    rw [to_mapping_loop_fresh _ hlen]
  · intro hs
    unfold to_mapping
    rw [hs]

theorem to_mapping_positions_witness :
    List.lookup "mapping" ([("mapping", "DDCDC")] : Profile) = some "DDCDC" ∧
    (std_bytes "DDCDC").length < 2 ^ 31 ∧
    (to_mapping ⟨3, 2, [], fun _ => 1⟩ [("mapping", "DDCDC")]).map
      (fun r => (r.1, r.2.chunk_mapping)) = some (0, [0, 1, 3, 2, 4]) :=
  ⟨by decide, by decide, by
    rw [(to_mapping_positions 3 2 (fun _ => 1) [("mapping", "DDCDC")]).2.1 "DDCDC"
      (by decide) (by decide)]
    decide⟩

/-- C10, as stated, fails: for the mapping string made of `2 ^ 31 + 1`
characters `'C'`, a string of length `n = 2 ^ 31 + 1`, `to_mapping` leaves no
permutation of `[0, n)`: the `int position` cannot count up to `n` (its
increment past `2 ^ 31 - 1` is undefined) and a `vector<int>` cannot hold the
entry `2 ^ 31`. -/
theorem to_mapping_no_permutation_beyond_int :
    to_mapping ⟨2, 1, [], fun _ => 1⟩
      [("mapping", String.mk (List.replicate (2 ^ 31 + 1) 'C'))] = none :=
  to_mapping_long_string _ _ 'C' 67 (by decide) (by omega)

/-- C10, amended with the bound that the `int position` imposes: for a mapping
string of `n < 2 ^ 31` characters (bytes), also one that is not text, the
`chunk_mapping` that `to_mapping` leaves on a fresh instance is a permutation
of `[0, n)`: it has `n` entries and every integer of `[0, n)` occurs in it
exactly once. -/
theorem to_mapping_permutation (k m : Nat) (gcs : Nat → Nat) (parameters : Profile) :
    (∀ cs : List UInt8, cs.length < 2 ^ 31 →
      ∃ r, to_mapping_loop cs [] [] 0 = some r ∧
        List.Perm (r.1 ++ r.2) (all_indices cs.length) ∧
        (r.1 ++ r.2).length = cs.length ∧
        ∀ i : Int, 0 ≤ i → i < cs.length → (r.1 ++ r.2).count i = 1) ∧
    (∀ s : String, parameters.lookup "mapping" = some s → (std_bytes s).length < 2 ^ 31 →
      ∃ ec2, to_mapping ⟨k, m, [], gcs⟩ parameters = some (0, ec2) ∧
        List.Perm ec2.chunk_mapping (all_indices (std_bytes s).length) ∧
        ec2.chunk_mapping.length = (std_bytes s).length ∧
        ∀ i : Int, 0 ≤ i → i < (std_bytes s).length → ec2.chunk_mapping.count i = 1) := by
  have hmain : ∀ cs : List UInt8,
      List.Perm (data_positions cs ++ coding_positions cs) (all_indices cs.length) ∧
      (data_positions cs ++ coding_positions cs).length = cs.length ∧
      ∀ i : Int, 0 ≤ i → i < cs.length →
        (data_positions cs ++ coding_positions cs).count i = 1 := by
    intro cs
    have hperm := positions_perm cs
    refine ⟨hperm, ?_, ?_⟩
    · simpa [all_indices] using hperm.length_eq
    · intro i h0 hn
      rw [hperm.count_eq]
      exact List.count_eq_one_of_mem (all_indices_sorted _).nodup
        ((mem_all_indices _ _).2 ⟨h0, hn⟩)
  constructor
  · intro cs hlen
    exact ⟨_, to_mapping_loop_fresh cs hlen, hmain cs⟩
  · intro s hs hlen
    refine ⟨⟨k, m, data_positions (std_bytes s) ++ coding_positions (std_bytes s), gcs⟩, ?_,
      hmain _⟩
    unfold to_mapping
    rw [hs]
    simp only
    rw [to_mapping_loop_fresh _ hlen]

theorem to_mapping_permutation_witness :
    List.lookup "mapping" ([("mapping", "CDD")] : Profile) = some "CDD" ∧
    (std_bytes "CDD").length < 2 ^ 31 ∧
    ∃ ec2, to_mapping ⟨2, 1, [], fun _ => 1⟩ [("mapping", "CDD")] = some (0, ec2) ∧
      List.Perm ec2.chunk_mapping (all_indices 3) :=
  ⟨by decide, by decide,
    ((to_mapping_permutation 2 1 (fun _ => 1) [("mapping", "CDD")]).2 "CDD"
      (by decide) (by decide)).imp (fun _ h => ⟨h.1, h.2.1⟩)⟩

/-! ## The decode orchestrator -/

theorem decode_copy_loop_spec (chunks : ChunkMap) (want : List Int) (decoded : ChunkMap)
    (h : ∀ i ∈ want, i ∈ map_keys chunks) :
    ∃ d, decode_copy_loop chunks want decoded = some d ∧
      (∀ j, map_find d j = if j ∈ want then map_find chunks j else map_find decoded j) ∧
      ((map_keys decoded).Sorted (· < ·) → (map_keys d).Sorted (· < ·)) := by
  induction want generalizing decoded with
  | nil => exact ⟨decoded, rfl, by simp, fun hs => hs⟩
  | cons i rest ih =>
    have hi : map_find chunks i ≠ none := (mem_map_keys_iff chunks i).1 (h i (by simp))
    obtain ⟨c, hc⟩ := Option.ne_none_iff_exists'.1 hi
    obtain ⟨d, hd, hfind, hsorted⟩ :=
      ih (map_set decoded i c) (fun j hj => h j (List.mem_cons_of_mem _ hj))
    refine ⟨d, ?_, ?_, ?_⟩
    · simp only [decode_copy_loop, hc]
      exact hd
    · intro j
      rw [hfind j, map_find_set]
      by_cases hjr : j ∈ rest
      · simp [hjr]
      · by_cases hji : j = i
        · subst hji
          simp [hc]
        · simp [hjr, hji]
    · intro hs
      exact hsorted (map_keys_set_sorted decoded i c hs)

theorem decode_of_included (ec : Instance) (junk : Nat → Nat → Byte)
    (want_to_read : List Int) (chunks : ChunkMap)
    (hw : want_to_read.Sorted (· < ·)) (hc : (map_keys chunks).Sorted (· < ·))
    (hsub : ∀ i ∈ want_to_read, i ∈ map_keys chunks) :
    ∃ decoded, (∀ decode_chunks,
        decode ec decode_chunks junk want_to_read chunks [] = some (0, decoded)) ∧
      map_keys decoded = want_to_read ∧
      ∀ j, map_find decoded j = if j ∈ want_to_read then map_find chunks j else none := by
  obtain ⟨d, hd, hfind, hsorted⟩ := decode_copy_loop_spec chunks want_to_read [] hsub
  have hinc : includes (map_keys chunks) want_to_read = true :=
    includes_complete _ _ hc hw hsub
  refine ⟨d, ?_, ?_, ?_⟩
  · intro decode_chunks
    simp only [decode, hinc, if_true, hd]
  · apply sorted_eq_of_mem_iff _ _ (hsorted (by simp [map_keys])) hw
    intro j
    rw [mem_map_keys_iff, hfind j]
    by_cases hj : j ∈ want_to_read
    · simpa [hj] using (mem_map_keys_iff chunks j).1 (hsub j hj)
    · simp [hj, map_find]
  · intro j
    rw [hfind j]
    rfl

/-- C6: when every wanted index is a key of the available chunk map, `decode`
into an empty map returns 0 whatever the decode strategy is, also with the
strategy of the base class that aborts when it is called, so the strategy is
not invoked; the key set of the result is exactly `want_to_read` and each entry
is the available chunk of the same index. -/
theorem decode_fast_path (ec : Instance)
    (decode_chunks : List Int → ChunkMap → ChunkMap → Option (Int × ChunkMap))
    (junk : Nat → Nat → Byte) (want_to_read : List Int) (chunks : ChunkMap)
    (hw : want_to_read.Sorted (· < ·)) (hc : (map_keys chunks).Sorted (· < ·))
    (hsub : ∀ i ∈ want_to_read, i ∈ map_keys chunks) :
    ∃ decoded, decode ec decode_chunks junk want_to_read chunks [] = some (0, decoded) ∧
      decode ec decode_chunks_not_implemented junk want_to_read chunks [] = some (0, decoded) ∧
      map_keys decoded = want_to_read ∧
      ∀ i ∈ want_to_read, map_find decoded i = map_find chunks i := by
  obtain ⟨d, hd, hkeys, hfind⟩ := decode_of_included ec junk want_to_read chunks hw hc hsub
  refine ⟨d, hd decode_chunks, hd decode_chunks_not_implemented, hkeys, ?_⟩
  intro i hi
  rw [hfind i, if_pos hi]

theorem decode_fast_path_witness :
    ([0, 2] : List Int).Sorted (· < ·) ∧
    (map_keys [(0, [1, 2]), (1, [3, 4]), (2, [5, 6])]).Sorted (· < ·) ∧
    (∀ i ∈ ([0, 2] : List Int), i ∈ map_keys [(0, [1, 2]), (1, [3, 4]), (2, [5, 6])]) ∧
    ∃ decoded, decode ⟨2, 1, [], fun _ => 2⟩ decode_chunks_not_implemented (fun _ _ => 0)
        [0, 2] [(0, [1, 2]), (1, [3, 4]), (2, [5, 6])] [] = some (0, decoded) ∧
      map_keys decoded = [0, 2] :=
  ⟨by decide, by decide, by decide,
    (decode_fast_path ⟨2, 1, [], fun _ => 2⟩ decode_chunks_not_implemented (fun _ _ => 0)
      [0, 2] [(0, [1, 2]), (1, [3, 4]), (2, [5, 6])] (by decide) (by decide) (by decide)).imp
      (fun _ h => ⟨h.1, h.2.2.1⟩)⟩

/-- C7, as stated, fails: with `k = 2`, chunk 1 wanted and chunk 0 alone
available, reconstruction is required and fewer than `k` chunks are available,
yet `decode` returns 0 when the decode strategy returns 0. -/
theorem decode_few_chunks_returns_strategy_code :
    (1 : Int) ∈ ([1] : List Int) ∧ (1 : Int) ∉ map_keys [(0, [1, 2])] ∧
    List.length ([(0, [1, 2])] : ChunkMap) < Instance.get_data_chunk_count ⟨2, 1, [], fun _ => 2⟩ ∧
    (decode ⟨2, 1, [], fun _ => 2⟩ (fun _ _ d => some (0, d)) (fun _ _ => 0)
      [1] [(0, [1, 2])] []).map Prod.fst = some 0 := by
  decide

/-- C7, amended: when some wanted index is missing from a non-empty available
chunk map, `decode` makes no check of its own on the number of available
chunks, fewer than `k` or not: it returns what the decode strategy returns on
the prepared map, so it fails with an I/O error exactly when the strategy
reports one. -/
theorem decode_returns_strategy_code (ec : Instance)
    (decode_chunks : List Int → ChunkMap → ChunkMap → Option (Int × ChunkMap))
    (junk : Nat → Nat → Byte) (want_to_read : List Int) (i0 : Int) (c0 : bufferlist)
    (rest decoded : ChunkMap)
    (hmiss : ¬ ∀ i ∈ want_to_read, i ∈ map_keys ((i0, c0) :: rest)) :
    decode ec decode_chunks junk want_to_read ((i0, c0) :: rest) decoded =
        decode_chunks want_to_read ((i0, c0) :: rest)
          (decode_fill_loop junk ((i0, c0) :: rest) (u32 c0.length)
            (List.range ec.get_chunk_count) decoded) ∧
      ∀ r d, decode_chunks want_to_read ((i0, c0) :: rest)
          (decode_fill_loop junk ((i0, c0) :: rest) (u32 c0.length)
            (List.range ec.get_chunk_count) decoded) = some (r, d) →
        ((decode ec decode_chunks junk want_to_read ((i0, c0) :: rest) decoded).map Prod.fst =
            some r ∧
          ((decode ec decode_chunks junk want_to_read ((i0, c0) :: rest) decoded).map Prod.fst =
            some (-EIO_val) ↔ r = -EIO_val)) := by
  have hinc : includes (map_keys ((i0, c0) :: rest)) want_to_read = false :=
    includes_eq_false _ _ hmiss
  have hd : decode ec decode_chunks junk want_to_read ((i0, c0) :: rest) decoded =
      decode_chunks want_to_read ((i0, c0) :: rest)
        (decode_fill_loop junk ((i0, c0) :: rest) (u32 c0.length)
          (List.range ec.get_chunk_count) decoded) := by
    simp only [decode, hinc, Bool.false_eq_true, if_false, u32_add_usub]
  refine ⟨hd, ?_⟩
  intro r d hrd
  rw [hd, hrd]
  simp

theorem decode_returns_strategy_code_witness :
    (¬ ∀ i ∈ ([1] : List Int), i ∈ map_keys [(0, [1, 2])]) ∧
    (decode ⟨2, 1, [], fun _ => 2⟩ (fun _ _ d => some (-5, d)) (fun _ _ => 0)
        [1] [(0, [1, 2])] []).map Prod.fst = some (-5) :=
  ⟨by decide,
    ((decode_returns_strategy_code ⟨2, 1, [], fun _ => 2⟩ (fun _ _ d => some (-5, d))
      (fun _ _ => 0) [1] 0 [1, 2] [] [] (by decide)).2 (-5) _ rfl).1⟩

/-! ## The encode orchestrator: the return code -/

/-- C8 fails on the code: with a strategy that returns `-EIO` on every call,
`encode` returns 0 (here `k = 2`, `m = 1`, chunks of 2 bytes and 3 bytes of
input). -/
theorem encode_drops_strategy_error :
    (encode ⟨2, 1, [], fun _ => 2⟩ (fun _ e => some (-EIO_val, e)) (fun _ _ => 0) true
      [0, 1, 2] [1, 2, 3] []).map Prod.fst = some 0 := by
  decide

/-! ## The result of `encode_prepare` -/

theorem range_split (q k m : Nat) (hq : q ≤ k) :
    List.range q ++ (List.range' q (k - q) ++ List.range' k m) = List.range (k + m) := by
  rw [List.range_eq_range', List.range_eq_range', ← List.append_assoc]
  have h1 := List.range'_append 0 q (k - q) 1
  have h2 := List.range'_append 0 k m 1
  simp only [Nat.zero_add, Nat.one_mul] at h1 h2
  rw [h1, Nat.sub_add_cancel hq, h2, Nat.add_comm m k]

theorem encode_prepare_eq (ec : Instance) (junk : Nat → Nat → Byte) (aligned : Bool)
    (raw : bufferlist) (e : ChunkMap)
    (hk : 1 ≤ ec.k) (hbs : 1 ≤ ec.get_chunk_size raw.length)
    (hL : raw.length ≤ ec.get_chunk_size raw.length * ec.k)
    (hov : ec.get_chunk_size raw.length * ec.k < 2 ^ 32)
    (hkm : ec.k + ec.m < 2 ^ 31)
    (hmap : ec.chunk_mapping = [] ∨ List.Perm ec.chunk_mapping (all_indices (ec.k + ec.m))) :
    encode_prepare ec junk aligned raw e =
      some (0, assign_loop (concat_index ec) (prepared_chunk ec junk raw)
        (List.range (ec.k + ec.m)) e) := by
  have hq : raw.length / ec.get_chunk_size raw.length ≤ ec.k := Nat.div_le_of_le_mul hL
  have hA : raw.length / ec.get_chunk_size raw.length * ec.get_chunk_size raw.length +
      raw.length % ec.get_chunk_size raw.length = raw.length := Nat.div_add_mod' _ _
  have hB : (ec.k - raw.length / ec.get_chunk_size raw.length) * ec.get_chunk_size raw.length +
      raw.length / ec.get_chunk_size raw.length * ec.get_chunk_size raw.length =
      ec.get_chunk_size raw.length * ec.k := by
    rw [← Nat.add_mul, Nat.sub_add_cancel hq, Nat.mul_comm]
  have hC : ec.get_chunk_size raw.length ≤ ec.get_chunk_size raw.length * ec.k :=
    Nat.le_mul_of_pos_right _ hk
  have hD : ec.k ≤ ec.get_chunk_size raw.length * ec.k := Nat.le_mul_of_pos_left _ hbs
  have e1 : ec.get_data_chunk_count = ec.k := u32_of_lt _ (by omega)
  have e2 : ec.get_chunk_count = ec.k + ec.m := u32_of_lt _ (by omega)
  have e3 : u32 raw.length = raw.length := u32_of_lt _ (by omega)
  have e4 : u32 (ec.get_chunk_size raw.length) = ec.get_chunk_size raw.length :=
    u32_of_lt _ (by omega)
  have hZ := padded_object_length raw _ _ hL
  have hval1 : ∀ i, i < ec.k → ∀ e2 : ChunkMap,
      data_chunk raw (ec.get_chunk_size raw.length) ec.k i = prepared_chunk ec junk raw e2 i := by
    intro i hi e2
    unfold prepared_chunk
    rw [if_pos hi]
  have hval3 : ∀ i, ec.k ≤ i → ∀ e2 : ChunkMap,
      map_at e2 (concat_index ec i) ++
        create_aligned (junk (i + 1)) (ec.get_chunk_size raw.length) =
      prepared_chunk ec junk raw e2 i := by
    intro i hi e2
    unfold prepared_chunk
    rw [if_neg (by omega)]
  unfold encode_prepare
  simp only [e1, e2, e3, e4]
  have hpo : padded_object raw (ec.get_chunk_size raw.length) ec.k =
      raw ++ List.replicate (ec.get_chunk_size raw.length * ec.k - raw.length) 0 := rfl
  have hdc : ∀ i, data_chunk raw (ec.get_chunk_size raw.length) ec.k i =
      ((padded_object raw (ec.get_chunk_size raw.length) ec.k).drop
        (i * ec.get_chunk_size raw.length)).take (ec.get_chunk_size raw.length) := fun _ => rfl
  generalize prepared_chunk ec junk raw = pchunk at hval1 hval3 ⊢
  generalize data_chunk raw (ec.get_chunk_size raw.length) ec.k = dchunk at hval1 hdc ⊢
  generalize padded_object raw (ec.get_chunk_size raw.length) ec.k = Z at hZ hpo hdc
  generalize ec.get_chunk_size raw.length = bs at hbs hL hov hq hA hB hC hD hval3 hZ hpo hdc ⊢
  generalize raw.length / bs = q at hq hA hB ⊢
  generalize raw.length % bs = r at hA ⊢
  clear e1 e2 e3 e4
  have f1 : usub ec.k q = ec.k - q := usub_of_le ec.k q hq (by omega)
  have f2 : usub ec.k (ec.k - q) = q := by
    rw [usub_of_le ec.k (ec.k - q) (by omega) (by omega)]
    omega
  have f3 : u32 (q * bs) = q * bs := u32_of_lt _ (by omega)
  have f4 : u32 ((ec.k - q) * bs) = (ec.k - q) * bs := u32_of_lt _ (by omega)
  have f5 : u32 (bs * ec.k) = bs * ec.k := u32_of_lt _ hov
  have f6 : usub (bs * ec.k) raw.length = bs * ec.k - raw.length := usub_of_le _ _ hL hov
  have f7 : usub ((ec.k - q) * bs) (bs * ec.k - raw.length) = r := by
    rw [usub_of_le ((ec.k - q) * bs) (bs * ec.k - raw.length) (by omega) (by omega)]
    omega
  have f8 : usub raw.length (q * bs) = r := by
    rw [usub_of_le raw.length (q * bs) (by omega) (by omega)]
    omega
  have f9 : usub (ec.k + ec.m) ec.k = ec.m := by
    rw [usub_of_le (ec.k + ec.m) ec.k (by omega) (by omega)]
    omega
  have f10 : u32 (ec.k + ec.m) = ec.k + ec.m := u32_of_lt _ (by omega)
  have f11 : ec.k + ec.m - ec.k = ec.m := by omega
  simp only [f1, f2, f3, f4, f5, f6, f7, f8, f9, f10, f11]
  rw [if_neg (by omega)]
  have hidx : ∀ l : List Nat, (∀ i ∈ l, i < ec.k + ec.m) →
      ∀ i ∈ l, chunk_index ec i = some (concat_index ec i) :=
    fun l hl i hi => chunk_index_eq ec i hmap (hl i hi)
  have hprep : ∃ prepared, (if aligned = true then some raw
      else if ec.k - q ≠ 0 then splice raw (q * bs) r
      else some raw) = some prepared ∧
      ∀ i ∈ List.range q, substr_of prepared (u32 (i * bs)) bs = some (dchunk i) := by
    have hraw : ∀ i ∈ List.range q, substr_of raw (u32 (i * bs)) bs = some (dchunk i) := by
      intro i hi
      have hi2 : (i + 1) * bs ≤ q * bs := Nat.mul_le_mul_right bs (List.mem_range.1 hi)
      rw [Nat.add_mul, Nat.one_mul] at hi2
      rw [u32_of_lt (i * bs) (by omega), hdc, hpo]
      exact substr_of_prefix raw _ _ _ (by omega)
    by_cases hal : aligned = true
    · exact ⟨raw, by rw [if_pos hal], hraw⟩
    · rw [if_neg hal]
      by_cases hpc : ec.k - q ≠ 0
      · rw [if_pos hpc]
        unfold splice
        by_cases hr : r = 0
        · exact ⟨raw, by rw [if_pos hr], hraw⟩
        · refine ⟨_, by rw [if_neg hr, if_pos (by omega)], ?_⟩
          intro i hi
          have hi2 : (i + 1) * bs ≤ q * bs := Nat.mul_le_mul_right bs (List.mem_range.1 hi)
          rw [Nat.add_mul, Nat.one_mul] at hi2
          rw [u32_of_lt (i * bs) (by omega), hdc, hpo,
            List.drop_of_length_le (by omega : raw.length ≤ q * bs + r), List.append_nil]
          have hsplit : raw ++ List.replicate (bs * ec.k - raw.length) (0 : Byte) =
              raw.take (q * bs) ++ (raw.drop (q * bs) ++
                List.replicate (bs * ec.k - raw.length) 0) := by
            rw [← List.append_assoc, List.take_append_drop]
          rw [hsplit]
          exact substr_of_prefix _ _ _ _ (by rw [List.length_take]; omega)
      · exact ⟨raw, by rw [if_neg hpc], hraw⟩
  obtain ⟨prepared, hp1, hp2⟩ := hprep
  rw [hp1]
  simp only
  rw [prepare_data_loop_eq ec prepared bs dchunk _ e
    (hidx _ (fun i hi => by have := List.mem_range.1 hi; omega)) hp2]
  simp only
  have hpad : (if ec.k - q ≠ 0 then
        match prepare_padded_buffer junk raw bs (ec.k - q) (q * bs) r (bs * ec.k - raw.length) with
        | none => none
        | some padded =>
          prepare_padded_loop ec padded bs q (List.range' q (ec.k - q))
            (assign_loop (concat_index ec) (fun _ i => dchunk i) (List.range q) e)
      else some (assign_loop (concat_index ec) (fun _ i => dchunk i) (List.range q) e)) =
      some (assign_loop (concat_index ec) (fun _ i => dchunk i) (List.range' q (ec.k - q))
        (assign_loop (concat_index ec) (fun _ i => dchunk i) (List.range q) e)) := by
    by_cases hpc : ec.k - q ≠ 0
    · rw [if_pos hpc, prepare_padded_buffer_eq junk raw bs _ _ _ _ hA (by omega) (by omega)]
      simp only
      apply prepare_padded_loop_eq
      · exact hidx _ (fun i hi => by have := List.mem_range'_1.1 hi; omega)
      · intro i hi
        have hi1 := List.mem_range'_1.1 hi
        have hi2 : (i - q + 1) * bs ≤ (ec.k - q) * bs := Nat.mul_le_mul_right bs (by omega)
        have hi3 : q * bs + (i - q) * bs = i * bs := by
          rw [← Nat.add_mul]
          congr 1
          omega
        rw [Nat.add_mul, Nat.one_mul] at hi2
        rw [usub_of_le i q hi1.1 (by omega), u32_of_lt ((i - q) * bs) (by omega), hdc, hpo,
          ← List.drop_append_of_le_length (by omega : q * bs ≤ raw.length), ← hpo, ← hi3]
        exact substr_of_drop Z _ _ _ (by omega)
    · rw [if_neg hpc]
      have : ec.k - q = 0 := by omega
      rw [this]
      rfl
  rw [hpad]
  simp only
  rw [prepare_coding_loop_eq ec junk bs _ _
    (hidx _ (fun i hi => by have := List.mem_range'_1.1 hi; omega))]
  simp only
  rw [assign_loop_congr _ _ pchunk (List.range q) e
      (fun i hi e2 => hval1 i (by have := List.mem_range.1 hi; omega) e2),
    assign_loop_congr _ _ pchunk (List.range' q (ec.k - q)) _
      (fun i hi e2 => hval1 i (by have := List.mem_range'_1.1 hi; omega) e2),
    assign_loop_congr _ _ pchunk (List.range' ec.k ec.m) _
      (fun i hi e2 => hval3 i (by have := List.mem_range'_1.1 hi; omega) e2),
    ← assign_loop_append, ← assign_loop_append, range_split _ _ _ hq]

theorem prepared_map_keys (ec : Instance) (val : ChunkMap → Nat → bufferlist)
    (hkm : ec.k + ec.m < 2 ^ 31)
    (hmap : ec.chunk_mapping = [] ∨ List.Perm ec.chunk_mapping (all_indices (ec.k + ec.m))) :
    map_keys (assign_loop (concat_index ec) val (List.range (ec.k + ec.m)) []) =
      all_indices (ec.k + ec.m) := by
  apply sorted_eq_of_mem_iff _ _
    (map_keys_assign_loop_sorted _ _ _ _ (by simp [map_keys])) (all_indices_sorted _)
  intro j
  rw [mem_map_keys_assign_loop, ← concat_index_range ec j hmap hkm]
  simp [map_keys, List.mem_range]

theorem prepared_map_data (ec : Instance) (junk : Nat → Nat → Byte) (raw : bufferlist)
    (hkm : ec.k + ec.m < 2 ^ 31)
    (hmap : ec.chunk_mapping = [] ∨ List.Perm ec.chunk_mapping (all_indices (ec.k + ec.m)))
    (i : Nat) (hi : i < ec.k) :
    map_find (assign_loop (concat_index ec) (prepared_chunk ec junk raw)
        (List.range (ec.k + ec.m)) []) (concat_index ec i) =
      some (data_chunk raw (ec.get_chunk_size raw.length) ec.k i) := by
  rw [map_find_assign_loop_mem _ _ _ _ i (data_chunk raw (ec.get_chunk_size raw.length) ec.k i)
    (fun e2 => by unfold prepared_chunk; rw [if_pos hi])
    (fun a ha h => concat_index_inj ec a i hmap hkm (List.mem_range.1 ha) (by omega) h),
    if_pos (List.mem_range.2 (by omega))]

theorem prepared_map_coding (ec : Instance) (junk : Nat → Nat → Byte) (raw : bufferlist)
    (hkm : ec.k + ec.m < 2 ^ 31)
    (hmap : ec.chunk_mapping = [] ∨ List.Perm ec.chunk_mapping (all_indices (ec.k + ec.m)))
    (i : Nat) (hi : ec.k ≤ i) (hi2 : i < ec.k + ec.m) :
    map_find (assign_loop (concat_index ec) (prepared_chunk ec junk raw)
        (List.range (ec.k + ec.m)) []) (concat_index ec i) =
      some (create_aligned (junk (i + 1)) (ec.get_chunk_size raw.length)) := by
  apply map_find_assign_loop_fresh (concat_index ec) (prepared_chunk ec junk raw)
    (List.range (ec.k + ec.m)) [] i _ _ (List.nodup_range _)
    (fun a ha h => concat_index_inj ec a i hmap hkm (List.mem_range.1 ha) hi2 h)
    (List.mem_range.2 hi2) (by rfl)
  intro e2 he2
  unfold prepared_chunk map_at
  rw [if_neg (by omega), he2]
  rfl

/-! ## Pruning -/

theorem map_find_prune (S : List Int) (l : List Nat) (e : ChunkMap) (j : Int) :
    map_find (prune S l e) j =
      if j ∉ S ∧ ∃ i ∈ l, int_of_unsigned i = j then none else map_find e j := by
  induction l generalizing e with
  | nil => simp [prune]
  | cons a rest ih =>
    unfold prune
    by_cases ha : S.contains (int_of_unsigned a) = true
    · rw [if_pos ha, ih]
      have ha2 : int_of_unsigned a ∈ S := by simpa using ha
      by_cases hj : j ∉ S ∧ ∃ i ∈ rest, int_of_unsigned i = j
      · rw [if_pos hj, if_pos ⟨hj.1, by
          obtain ⟨i, hi, h⟩ := hj.2
          exact ⟨i, List.mem_cons_of_mem _ hi, h⟩⟩]
      · rw [if_neg hj, if_neg]
        rintro ⟨hjS, i, hi, h⟩
        rcases List.mem_cons.1 hi with e1 | e1
        · subst e1
          exact hjS (h ▸ ha2)
        · exact hj ⟨hjS, i, e1, h⟩
    · rw [if_neg ha, ih, map_find_erase]
      have ha2 : int_of_unsigned a ∉ S := by simpa using ha
      by_cases hj : j ∉ S ∧ ∃ i ∈ rest, int_of_unsigned i = j
      · rw [if_pos hj, if_pos ⟨hj.1, by
          obtain ⟨i, hi, h⟩ := hj.2
          exact ⟨i, List.mem_cons_of_mem _ hi, h⟩⟩]
      · rw [if_neg hj]
        by_cases hja : j = int_of_unsigned a
        · rw [if_pos hja, if_pos]
          exact ⟨hja ▸ ha2, a, by simp, hja.symm⟩
        · rw [if_neg hja, if_neg]
          rintro ⟨hjS, i, hi, h⟩
          rcases List.mem_cons.1 hi with e1 | e1
          · subst e1
            exact hja h.symm
          · exact hj ⟨hjS, i, e1, h⟩

theorem map_keys_prune_sorted (S : List Int) (l : List Nat) (e : ChunkMap)
    (h : (map_keys e).Sorted (· < ·)) : (map_keys (prune S l e)).Sorted (· < ·) := by
  induction l generalizing e with
  | nil => exact h
  | cons a rest ih =>
    unfold prune
    split_ifs
    · exact ih e h
    · exact ih _ (map_keys_erase_sorted e _ h)

theorem exists_int_of_unsigned_iff (n : Nat) (hn : n < 2 ^ 31) (j : Int) :
    (∃ i ∈ List.range n, int_of_unsigned i = j) ↔ j ∈ all_indices n := by
  rw [mem_all_indices]
  constructor
  · rintro ⟨i, hi, rfl⟩
    have := List.mem_range.1 hi
    rw [int_of_unsigned_of_lt i (by omega)]
    exact ⟨Int.ofNat_nonneg i, by exact_mod_cast this⟩
  · rintro ⟨h0, h1⟩
    refine ⟨j.toNat, List.mem_range.2 (by omega), ?_⟩
    rw [int_of_unsigned_of_lt _ (by omega)]
    simp [Int.toNat_of_nonneg h0]

/-! ## More lemmas on sets -/

theorem mem_set_insert (l : List Int) (x y : Int) : y ∈ set_insert l x ↔ y = x ∨ y ∈ l := by
  induction l with
  | nil => simp [set_insert]
  | cons a rest ih =>
    unfold set_insert
    split_ifs with h1 h2
    · simp
    · subst h2
      simp
    · rw [List.mem_cons, ih, List.mem_cons]
      tauto

theorem set_insert_sorted (l : List Int) (x : Int) (h : l.Sorted (· < ·)) :
    (set_insert l x).Sorted (· < ·) := by
  induction l with
  | nil => simp [set_insert]
  | cons a rest ih =>
    have ha : ∀ b ∈ rest, a < b := (List.sorted_cons.1 h).1
    unfold set_insert
    split_ifs with h1 h2
    · refine List.sorted_cons.2 ⟨?_, h⟩
      intro b hb
      rcases List.mem_cons.1 hb with e1 | e1
      · rw [e1]
        exact h1
      · exact lt_trans h1 (ha b e1)
    · exact h
    · refine List.sorted_cons.2 ⟨?_, ih (List.sorted_cons.1 h).2⟩
      intro b hb
      rcases (mem_set_insert rest x b).1 hb with e1 | e1
      · rw [e1]
        omega
      · exact ha b e1

theorem foldl_set_insert_spec (l acc : List Int) (h : acc.Sorted (· < ·)) :
    (l.foldl set_insert acc).Sorted (· < ·) ∧
      ∀ y, y ∈ l.foldl set_insert acc ↔ y ∈ acc ∨ y ∈ l := by
  induction l generalizing acc with
  | nil => simp [h]
  | cons a rest ih =>
    obtain ⟨h1, h2⟩ := ih (set_insert acc a) (set_insert_sorted acc a h)
    refine ⟨h1, ?_⟩
    intro y
    rw [List.foldl_cons, h2, mem_set_insert, List.mem_cons]
    tauto

/-! ## Concatenation -/

theorem concat_loop_eq (ec : Instance) (l : List Nat) (dm : ChunkMap) (acc : bufferlist)
    (hnd : l.Nodup)
    (hinj : ∀ a ∈ l, ∀ b ∈ l, concat_index ec a = concat_index ec b → a = b) :
    concat_loop ec l dm acc =
      acc ++ (l.map (fun i => map_at dm (concat_index ec i))).flatten := by
  induction l generalizing dm acc with
  | nil => simp [concat_loop]
  | cons a rest ih =>
    have hnd2 := List.nodup_cons.1 hnd
    unfold concat_loop
    rw [ih _ _ hnd2.2 (fun x hx y hy => hinj x (List.mem_cons_of_mem _ hx) y
      (List.mem_cons_of_mem _ hy))]
    have hmap : rest.map (fun i => map_at (map_set dm (concat_index ec a) [])
        (concat_index ec i)) = rest.map (fun i => map_at dm (concat_index ec i)) := by
      apply List.map_congr_left
      intro i hi
      unfold map_at
      rw [map_find_set, if_neg]
      intro h
      have : i = a := hinj i (List.mem_cons_of_mem _ hi) a (by simp) h
      exact hnd2.1 (this ▸ hi)
    rw [hmap]
    simp

theorem chunks_flatten (Z : bufferlist) (bs k : Nat) :
    ((List.range k).map (fun i => (Z.drop (i * bs)).take bs)).flatten = Z.take (k * bs) := by
  induction k with
  | zero => simp
  | succ n ih =>
    rw [List.range_succ, List.map_append, List.flatten_append, ih, Nat.succ_mul, List.take_add]
    simp

/-! ## The pruning law and the round trip -/

/-- C2, as stated, fails.  With `k = 2`, `m = 1`, one byte of input, chunks of
`2 ^ 31` bytes and `want_to_encode = {1}`, the `unsigned` product
`padded_chunks * blocksize` wraps to 0 and `encode` does not return.  And with
chunks of 2 bytes, 3 bytes of input, `want_to_encode = {0, 1, 2}` and a
strategy that erases chunk 1 from the map, `encode` returns 0 with the key set
`{0, 2}`. -/
theorem encode_key_set_fails_without_bounds :
    ((∀ x ∈ ([1] : List Int), x ∈ all_indices (2 + 1)) ∧
      encode ⟨2, 1, [], fun _ => 2 ^ 31⟩ (fun _ e => some (0, e)) (fun _ _ => 0) true
        [1] [1] [] = none) ∧
    ((∀ x ∈ ([0, 1, 2] : List Int), x ∈ all_indices (2 + 1)) ∧
      (encode ⟨2, 1, [], fun _ => 2⟩ (fun _ e => some (0, map_erase e 1)) (fun _ _ => 0) true
        [0, 1, 2] [1, 2, 3] []).map (fun r => (r.1, map_keys r.2)) = some (0, [0, 2])) := by
  decide

/-- C2, amended with the conditions that the code relies on: on an instance
with `k ≥ 1`, `k + m < 2 ^ 31`, a chunk mapping that is empty or a permutation
of `[0, k + m)` and a chunk size `blocksize ≥ 1` with
`L ≤ blocksize * k < 2 ^ 32`, and with an encode strategy that returns and
keeps the key set, `encode` of any input of `L` bytes into an empty map, with
any `want_to_encode` that is a subset of `[0, k + m)`, returns 0 and leaves a
map whose key set is exactly `want_to_encode`: the map handed to the strategy
holds all of `[0, k + m)` and the result is what the strategy leaves with every
index of `[0, k + m)` outside `want_to_encode` erased. -/
theorem encode_key_set (ec : Instance)
    (encode_chunks : List Int → ChunkMap → Option (Int × ChunkMap))
    (junk : Nat → Nat → Byte) (aligned : Bool) (want_to_encode : List Int) (raw : bufferlist)
    (hS : want_to_encode.Sorted (· < ·))
    (hsub : ∀ x ∈ want_to_encode, x ∈ all_indices (ec.k + ec.m))
    (hk : 1 ≤ ec.k) (hbs : 1 ≤ ec.get_chunk_size raw.length)
    (hL : raw.length ≤ ec.get_chunk_size raw.length * ec.k)
    (hov : ec.get_chunk_size raw.length * ec.k < 2 ^ 32)
    (hkm : ec.k + ec.m < 2 ^ 31)
    (hmap : ec.chunk_mapping = [] ∨ List.Perm ec.chunk_mapping (all_indices (ec.k + ec.m)))
    (hstrat : ∀ enc, ∃ r enc2, encode_chunks want_to_encode enc = some (r, enc2) ∧
      map_keys enc2 = map_keys enc) :
    ∃ prepared r enc2,
      encode_prepare ec junk aligned raw [] = some (0, prepared) ∧
      map_keys prepared = all_indices (ec.k + ec.m) ∧
      encode_chunks want_to_encode prepared = some (r, enc2) ∧
      encode ec encode_chunks junk aligned want_to_encode raw [] =
        some (0, prune want_to_encode (List.range (ec.k + ec.m)) enc2) ∧
      map_keys (prune want_to_encode (List.range (ec.k + ec.m)) enc2) = want_to_encode := by
  obtain ⟨r, enc2, hs1, hs2⟩ := hstrat (assign_loop (concat_index ec)
    (prepared_chunk ec junk raw) (List.range (ec.k + ec.m)) [])
  have hkeys := prepared_map_keys ec (prepared_chunk ec junk raw) hkm hmap
  have hcount : u32 (ec.get_data_chunk_count + usub ec.get_chunk_count ec.get_data_chunk_count) =
      ec.k + ec.m := by
    rw [u32_add_usub]
    exact u32_of_lt _ (by omega)
  refine ⟨_, r, enc2, encode_prepare_eq ec junk aligned raw [] hk hbs hL hov hkm hmap, hkeys,
    hs1, ?_, ?_⟩
  · unfold encode
    rw [encode_prepare_eq ec junk aligned raw [] hk hbs hL hov hkm hmap]
    simp only [ne_eq, not_true_eq_false, if_false, hs1, hcount]
  · apply sorted_eq_of_mem_iff _ _ (map_keys_prune_sorted _ _ _ ?_) hS
    · intro j
      rw [mem_map_keys_iff, map_find_prune]
      simp only [exists_int_of_unsigned_iff _ hkm]
      have hj : map_find enc2 j ≠ none ↔ j ∈ all_indices (ec.k + ec.m) := by
        rw [← mem_map_keys_iff, hs2, hkeys]
      by_cases h1 : j ∈ want_to_encode
      · have := hsub j h1
        simp [h1, hj, this]
      · simp [h1, hj]
    · rw [hs2, hkeys]
      exact all_indices_sorted _

theorem encode_key_set_witness :
    ([1, 4] : List Int).Sorted (· < ·) ∧
    (∀ x ∈ ([1, 4] : List Int), x ∈ all_indices (3 + 2)) ∧
    (encode ⟨3, 2, [0, 1, 3, 2, 4], fun _ => 2⟩ (fun _ e => some (0, e))
        (fun _ _ => 0) false [1, 4] [1, 2, 3, 4, 5] []).map (fun r => map_keys r.2) =
      some [1, 4] :=
  ⟨by decide, by decide, by
    obtain ⟨_, _, enc2, _, _, _, h1, h2⟩ :=
      encode_key_set ⟨3, 2, [0, 1, 3, 2, 4], fun _ => 2⟩ (fun _ e => some (0, e))
        (fun _ _ => 0) false [1, 4] [1, 2, 3, 4, 5] (by decide) (by decide) (by decide)
        (by decide) (by decide) (by decide) (by decide) (Or.inr (by decide))
        (fun enc => ⟨0, enc, rfl, rfl⟩)
    rw [h1]
    exact congrArg some h2⟩

/-- C1, as stated, fails: with `k = 2`, `m = 1`, one byte of input and chunks
of `2 ^ 31` bytes, `blocksize * k` is at least the input length, yet
`blocksize * k` is `2 ^ 32`, the `unsigned` products wrap to 0, the padded
buffer is allocated with 0 bytes and the copy of the input byte into it
leaves the buffer: `encode` does not return. -/
theorem encode_wraps_at_4GiB :
    (1 ≤ 2 ∧ 1 ≤ 2 ^ 31 ∧ ([1] : bufferlist).length ≤ 2 ^ 31 * 2) ∧
    encode ⟨2, 1, [], fun _ => 2 ^ 31⟩ (fun _ e => some (0, e)) (fun _ _ => 0) true
      (all_indices (2 + 1)) [1] [] = none := by
  decide

/-- C1, amended with the bound that the 32-bit sizes of the code impose: for
`k ≥ 1`, `m ≥ 0`, an input of `L` bytes, a chunk size `blocksize ≥ 1` with
`L ≤ blocksize * k < 2 ^ 32`, `k + m < 2 ^ 31`, a chunk mapping that is empty
or a permutation of `[0, k + m)`, and an encode strategy that returns and
leaves the key set and the data chunks untouched, `encode` of all of
`[0, k + m)` into an empty map returns 0 and `decode_concat` of the resulting
map returns 0 and the input followed by `blocksize * k - L` zero bytes, a
buffer of `blocksize * k` bytes whose first `L` bytes are the input. -/
theorem encode_decode_concat_round_trip (ec : Instance)
    (encode_chunks : List Int → ChunkMap → Option (Int × ChunkMap))
    (decode_chunks : List Int → ChunkMap → ChunkMap → Option (Int × ChunkMap))
    (junk junk2 : Nat → Nat → Byte) (aligned : Bool) (raw : bufferlist)
    (hk : 1 ≤ ec.k) (hbs : 1 ≤ ec.get_chunk_size raw.length)
    (hL : raw.length ≤ ec.get_chunk_size raw.length * ec.k)
    (hov : ec.get_chunk_size raw.length * ec.k < 2 ^ 32)
    (hkm : ec.k + ec.m < 2 ^ 31)
    (hmap : ec.chunk_mapping = [] ∨ List.Perm ec.chunk_mapping (all_indices (ec.k + ec.m)))
    (hstrat : ∀ enc, ∃ r enc2, encode_chunks (all_indices (ec.k + ec.m)) enc = some (r, enc2) ∧
      map_keys enc2 = map_keys enc ∧
      ∀ i, i < ec.k → map_find enc2 (concat_index ec i) = map_find enc (concat_index ec i)) :
    ∃ encoded, encode ec encode_chunks junk aligned (all_indices (ec.k + ec.m)) raw [] =
        some (0, encoded) ∧
      decode_concat ec decode_chunks junk2 encoded [] =
        some (0, raw ++ List.replicate (ec.get_chunk_size raw.length * ec.k - raw.length) 0) ∧
      (raw ++ List.replicate (ec.get_chunk_size raw.length * ec.k - raw.length) 0).length =
        ec.get_chunk_size raw.length * ec.k ∧
      (raw ++ List.replicate (ec.get_chunk_size raw.length * ec.k - raw.length)
        (0 : Byte)).take raw.length = raw := by
  obtain ⟨r, enc2, hs1, hs2, hs3⟩ := hstrat (assign_loop (concat_index ec)
    (prepared_chunk ec junk raw) (List.range (ec.k + ec.m)) [])
  have hkeys := prepared_map_keys ec (prepared_chunk ec junk raw) hkm hmap
  have hD : ec.k ≤ ec.get_chunk_size raw.length * ec.k := Nat.le_mul_of_pos_left _ hbs
  have hcount : u32 (ec.get_data_chunk_count + usub ec.get_chunk_count ec.get_data_chunk_count) =
      ec.k + ec.m := by
    rw [u32_add_usub]
    exact u32_of_lt _ (by omega)
  have e1 : ec.get_data_chunk_count = ec.k := u32_of_lt _ (by omega)
  -- the map that `encode` leaves
  have hfindP : ∀ j, map_find (prune (all_indices (ec.k + ec.m)) (List.range (ec.k + ec.m))
      enc2) j = map_find enc2 j := by
    intro j
    rw [map_find_prune, if_neg]
    simp only [exists_int_of_unsigned_iff _ hkm]
    tauto
  have hsortedP : (map_keys (prune (all_indices (ec.k + ec.m)) (List.range (ec.k + ec.m))
      enc2)).Sorted (· < ·) := by
    apply map_keys_prune_sorted
    rw [hs2, hkeys]
    exact all_indices_sorted _
  have hmemP : ∀ j, j ∈ map_keys (prune (all_indices (ec.k + ec.m))
      (List.range (ec.k + ec.m)) enc2) ↔ j ∈ all_indices (ec.k + ec.m) := by
    intro j
    rw [mem_map_keys_iff, hfindP, ← mem_map_keys_iff, hs2, hkeys]
  have hencode : encode ec encode_chunks junk aligned (all_indices (ec.k + ec.m)) raw [] =
      some (0, prune (all_indices (ec.k + ec.m)) (List.range (ec.k + ec.m)) enc2) := by
    unfold encode
    rw [encode_prepare_eq ec junk aligned raw [] hk hbs hL hov hkm hmap]
    simp only [ne_eq, not_true_eq_false, if_false, hs1, hcount]
  generalize prune (all_indices (ec.k + ec.m)) (List.range (ec.k + ec.m)) enc2 = P
    at hfindP hsortedP hmemP hencode
  -- the set of the data chunks
  obtain ⟨hwsorted, hwmem⟩ := foldl_set_insert_spec
    ((List.range ec.k).map (concat_index ec)) [] (by simp)
  have hwsub : ∀ j ∈ ((List.range ec.k).map (concat_index ec)).foldl set_insert [],
      j ∈ map_keys P := by
    intro j hj
    rcases (hwmem j).1 hj with h | h
    · simp at h
    · obtain ⟨i, hi, rfl⟩ := List.mem_map.1 h
      rw [hmemP, ← concat_index_range ec _ hmap hkm]
      exact ⟨i, by have := List.mem_range.1 hi; omega, rfl⟩
  obtain ⟨d, hd, _, hdfind⟩ := decode_of_included ec junk2 _ P hwsorted hsortedP hwsub
  have hchunk : ∀ i ∈ List.range ec.k, map_at d (concat_index ec i) =
      data_chunk raw (ec.get_chunk_size raw.length) ec.k i := by
    intro i hi
    have hik := List.mem_range.1 hi
    unfold map_at
    rw [hdfind, if_pos ((hwmem _).2 (Or.inr (List.mem_map.2 ⟨i, hi, rfl⟩))), hfindP,
      hs3 i hik, prepared_map_data ec junk raw hkm hmap i hik]
    rfl
  have hZ := padded_object_length raw _ _ hL
  refine ⟨P, hencode, ?_, ?_, ?_⟩
  · unfold decode_concat
    simp only [e1, hd decode_chunks, if_true]
    rw [concat_loop_eq ec _ _ _ (List.nodup_range _)
      (fun a ha b hb h => concat_index_inj ec a b hmap hkm
        (by have := List.mem_range.1 ha; omega) (by have := List.mem_range.1 hb; omega) h),
      List.map_congr_left hchunk]
    unfold data_chunk
    rw [chunks_flatten, List.take_of_length_le (by rw [hZ, Nat.mul_comm])]
    rfl
  · exact hZ
  · simp

theorem encode_decode_concat_round_trip_witness :
    (1 ≤ 3 ∧ 1 ≤ 2 ∧ ([1, 2, 3, 4, 5] : bufferlist).length ≤ 2 * 3 ∧ 2 * 3 < 2 ^ 32 ∧
      3 + 2 < 2 ^ 31) ∧
    ∃ encoded, encode ⟨3, 2, [0, 1, 3, 2, 4], fun _ => 2⟩ (fun _ e => some (0, e))
        (fun _ _ => 9) false (all_indices (3 + 2)) [1, 2, 3, 4, 5] [] = some (0, encoded) ∧
      decode_concat ⟨3, 2, [0, 1, 3, 2, 4], fun _ => 2⟩ decode_chunks_not_implemented
        (fun _ _ => 9) encoded [] = some (0, [1, 2, 3, 4, 5, 0]) :=
  ⟨by decide,
    (encode_decode_concat_round_trip ⟨3, 2, [0, 1, 3, 2, 4], fun _ => 2⟩
      (fun _ e => some (0, e)) decode_chunks_not_implemented (fun _ _ => 9) (fun _ _ => 9)
      false [1, 2, 3, 4, 5] (by decide) (by decide) (by decide) (by decide) (by decide)
      (Or.inr (by decide)) (fun enc => ⟨0, enc, rfl, rfl, fun _ _ => rfl⟩)).imp
      (fun _ h => ⟨h.1, h.2.1⟩)⟩

/-! ## The minimum-set solver with costs -/

/-- C11: `minimum_to_decode_with_cost` ignores the costs: its return code and
minimum set are those of `minimum_to_decode` on the key set of the cost map,
and two cost maps with the same keys give the same result whatever their
costs. -/
theorem minimum_to_decode_with_cost_ignores_cost (ec : Instance)
    (want_to_read : List Int) (available : List (Int × Int)) (minimum : List Int)
    (ha : (available.map Prod.fst).Sorted (· < ·)) :
    minimum_to_decode_with_cost ec want_to_read available minimum =
      minimum_to_decode ec want_to_read (available.map Prod.fst) minimum ∧
    ∀ available2 : List (Int × Int), available2.map Prod.fst = available.map Prod.fst →
      minimum_to_decode_with_cost ec want_to_read available2 minimum =
        minimum_to_decode_with_cost ec want_to_read available minimum := by
  constructor
  · unfold minimum_to_decode_with_cost
    rw [foldl_set_insert_sorted _ [] (by simpa using ha)]
    rfl
  · intro available2 h
    unfold minimum_to_decode_with_cost
    rw [h]

theorem minimum_to_decode_with_cost_ignores_cost_witness :
    (List.map Prod.fst ([(0, 9), (2, 1), (3, 1)] : List (Int × Int))).Sorted (· < ·) ∧
    minimum_to_decode_with_cost ⟨2, 2, [], fun _ => 1⟩ [1] [(0, 9), (2, 1), (3, 1)] [] =
      (0, [0, 2]) ∧
    minimum_to_decode_with_cost ⟨2, 2, [], fun _ => 1⟩ [1] [(0, 1), (2, 9), (3, 9)] [] =
      minimum_to_decode_with_cost ⟨2, 2, [], fun _ => 1⟩ [1] [(0, 9), (2, 1), (3, 1)] [] :=
  ⟨by decide,
    ((minimum_to_decode_with_cost_ignores_cost ⟨2, 2, [], fun _ => 1⟩ [1]
      [(0, 9), (2, 1), (3, 1)] [] (by decide)).1).trans (by decide),
    (minimum_to_decode_with_cost_ignores_cost ⟨2, 2, [], fun _ => 1⟩ [1]
      [(0, 9), (2, 1), (3, 1)] [] (by decide)).2 [(0, 1), (2, 9), (3, 9)] (by decide)⟩

end ErasureCode

/-! ## The capability parser -/

namespace MDSAuthCaps

/-- C12 fails on the code: on a freshly constructed object `parse("allow")`
returns 0 and leaves `write = false`, while `parse("allow rw")` returns 0 and
sets `write = true`; the two calls do not leave the same state. -/
theorem parse_allow_leaves_write_unset :
    parse construct "allow" = (0, ⟨false, false⟩) ∧
    parse construct "allow rw" = (0, ⟨true, false⟩) ∧
    (parse construct "allow").2.write ≠ (parse construct "allow rw").2.write := by
  decide

/-- C13: `parse` returns 0 exactly when the string is one of `"allow"`,
`"allow r"`, `"allow rw"`, `"allow *"`; for every other string it returns
`-EINVAL` and leaves `write` and `tell` as they were; `get_tell` is true after
a parse of `"allow *"` and false after a parse of `"allow r"` or
`"allow rw"`. -/
theorem parse_grammar (caps : MDSAuthCaps) (str : String) :
    ((caps.parse str).1 = 0 ↔
      (str = "allow" ∨ str = "allow r" ∨ str = "allow rw" ∨ str = "allow *")) ∧
    (¬ (str = "allow" ∨ str = "allow r" ∨ str = "allow rw" ∨ str = "allow *") →
      caps.parse str = (-ErasureCode.EINVAL_val, caps) ∧
      (caps.parse str).1 < 0 ∧
      (caps.parse str).2.write = caps.write ∧ (caps.parse str).2.tell = caps.tell) ∧
    (caps.parse "allow *").1 = 0 ∧ (caps.parse "allow *").2.get_tell = true ∧
    (caps.parse "allow r").1 = 0 ∧ (caps.parse "allow r").2.get_tell = false ∧
    (caps.parse "allow rw").1 = 0 ∧ (caps.parse "allow rw").2.get_tell = false := by
  refine ⟨?_, ?_, ?_, ?_, ?_, ?_, ?_, ?_⟩
  · unfold parse
    split_ifs with h1 h2 h3 h4
    · simp [h1]
    · simp [h2]
    · simp [h3]
    · simp [h4]
    · simp [h1, h2, h3, h4, ErasureCode.EINVAL_val]
  · intro h
    have h1 : ¬ str = "allow" := fun e => h (Or.inl e)
    have h2 : ¬ str = "allow r" := fun e => h (Or.inr (Or.inl e))
    have h3 : ¬ str = "allow rw" := fun e => h (Or.inr (Or.inr (Or.inl e)))
    have h4 : ¬ str = "allow *" := fun e => h (Or.inr (Or.inr (Or.inr e)))
    have hp : caps.parse str = (-ErasureCode.EINVAL_val, caps) := by
      unfold parse
      rw [if_neg h1, if_neg h2, if_neg h3, if_neg h4]
    rw [hp]
    exact ⟨rfl, by simp [ErasureCode.EINVAL_val], rfl, rfl⟩
  all_goals
    unfold parse
    simp [get_tell]

theorem parse_grammar_witness :
    (¬ ("allow w" = "allow" ∨ "allow w" = "allow r" ∨ "allow w" = "allow rw" ∨
      "allow w" = "allow *")) ∧
    parse ⟨true, true⟩ "allow w" = (-22, ⟨true, true⟩) :=
  ⟨by decide, ((parse_grammar ⟨true, true⟩ "allow w").2.1 (by decide)).1⟩

end MDSAuthCaps

/-! ## Parameter coercion -/

namespace ErasureCode

/-- C14: `to_bool` returns 0 for every parameter map and key; the value is
true when the value of the key is `"yes"` or `"true"`; an absent key or an
empty value gives `default_value`; any other non-empty value gives false. -/
theorem to_bool_value (name : String) (parameters : Profile) (value default_value : Bool) :
    (to_bool name parameters value default_value).1 = 0 ∧
    (∀ p, parameters.lookup name = some p → (p = "yes" ∨ p = "true") →
      (to_bool name parameters value default_value).2 = true) ∧
    ((parameters.lookup name = none ∨ ∃ p, parameters.lookup name = some p ∧ p.length = 0) →
      (to_bool name parameters value default_value).2 = default_value) ∧
    (∀ p, parameters.lookup name = some p → p.length ≠ 0 → p ≠ "yes" → p ≠ "true" →
      (to_bool name parameters value default_value).2 = false) := by
  refine ⟨?_, ?_, ?_, ?_⟩
  · unfold to_bool
    cases parameters.lookup name with
    | none => rfl
    | some p =>
      simp only
      split_ifs <;> rfl
  · intro p hp h
    unfold to_bool
    rw [hp]
    simp only
    rcases h with h | h
    · subst h
      rw [if_neg (by decide)]
      rfl
    · subst h
      rw [if_neg (by decide)]
      rfl
  · rintro (h | ⟨p, hp, h0⟩)
    · unfold to_bool
      rw [h]
    · unfold to_bool
      rw [hp]
      simp only
      rw [if_pos h0]
  · intro p hp h0 h1 h2
    unfold to_bool
    rw [hp]
    simp only
    rw [if_neg h0]
    simp [h1, h2]

theorem to_bool_value_witness :
    List.lookup "technique" ([("technique", "no")] : Profile) = some "no" ∧
    to_bool "technique" [("technique", "no")] true true = (0, false) ∧
    to_bool "technique" [("technique", "true")] false false = (0, true) ∧
    to_bool "technique" [("other", "true")] false true = (0, true) :=
  ⟨by decide,
    Prod.ext (to_bool_value "technique" [("technique", "no")] true true).1
      ((to_bool_value "technique" [("technique", "no")] true true).2.2.2 "no"
        (by decide) (by decide) (by decide) (by decide)),
    by decide, by decide⟩

/-- C15: `to_int` sets the value to the default and returns 0 when the key is
absent or its value is empty; when the strict base-10 parse of the value leaves
an error text, it sets the value to the default, appends a diagnostic to the
stream and returns `-EINVAL`; otherwise it sets the value to the parsed integer
and returns 0, the stream being left as it was. -/
theorem to_int_value (strict_strtol : String → Int → Int × String) (name : String)
    (parameters : Profile) (value default_value : Int) (ss : String) :
    ((parameters.lookup name = none ∨ ∃ p, parameters.lookup name = some p ∧ p.length = 0) →
      to_int strict_strtol name parameters value default_value ss = (0, default_value, ss)) ∧
    (∀ p, parameters.lookup name = some p → p.length ≠ 0 →
      (strict_strtol (c_str p) 10).2.length ≠ 0 →
      to_int strict_strtol name parameters value default_value ss =
        (-EINVAL_val, default_value,
          ss ++ "could not convert " ++ name ++ "=" ++ p ++ " to int because " ++
            (strict_strtol (c_str p) 10).2 ++ ", set to default " ++
            toString default_value ++ "\n")) ∧
    (∀ p, parameters.lookup name = some p → p.length ≠ 0 →
      (strict_strtol (c_str p) 10).2.length = 0 →
      to_int strict_strtol name parameters value default_value ss =
        (0, (strict_strtol (c_str p) 10).1, ss)) := by
  refine ⟨?_, ?_, ?_⟩
  · rintro (h | ⟨p, hp, h0⟩)
    · unfold to_int
      rw [h]
    · unfold to_int
      rw [hp]
      simp only
      rw [if_pos h0]
  · intro p hp h0 herr
    unfold to_int
    rw [hp]
    simp only
    rw [if_neg h0, if_pos herr]
  · intro p hp h0 herr
    unfold to_int
    rw [hp]
    simp only
    rw [if_neg h0, if_neg (by simpa using herr)]

theorem to_int_value_witness :
    List.lookup "k" ([("k", "2x")] : Profile) = some "2x" ∧ ("2x" : String).length ≠ 0 ∧
    ("expected integer, got: 2x" : String).length ≠ 0 ∧
    (to_int (fun s _ => (0, "expected integer, got: " ++ s)) "k" [("k", "2x")] 0 7 "").1 =
      -22 ∧
    (to_int (fun s _ => (0, "expected integer, got: " ++ s)) "k" [("k", "2x")] 0 7 "").2.1 = 7 :=
  ⟨by decide, by decide, by decide,
    congrArg Prod.fst ((to_int_value (fun s _ => (0, "expected integer, got: " ++ s)) "k"
      [("k", "2x")] 0 7 "").2.1 "2x" (by decide) (by decide) (by decide)),
    congrArg (fun r => r.2.1) ((to_int_value (fun s _ => (0, "expected integer, got: " ++ s))
      "k" [("k", "2x")] 0 7 "").2.1 "2x" (by decide) (by decide) (by decide))⟩

end ErasureCode

/-! ## The layout of the prepared chunks -/

namespace ErasureCode

theorem data_chunk_length (raw : bufferlist) (bs k i : Nat) (hL : raw.length ≤ bs * k)
    (hi : i < k) : (data_chunk raw bs k i).length = bs := by
  have h1 : (i + 1) * bs ≤ k * bs := Nat.mul_le_mul_right bs hi
  rw [Nat.add_mul, Nat.one_mul, Nat.mul_comm k bs] at h1
  unfold data_chunk
  rw [List.length_take, List.length_drop, padded_object_length raw bs k hL]
  omega

theorem data_chunks_flatten (raw : bufferlist) (bs k : Nat) (hL : raw.length ≤ bs * k) :
    ((List.range k).map (data_chunk raw bs k)).flatten =
      raw ++ List.replicate (bs * k - raw.length) 0 := by
  have hZ := padded_object_length raw bs k hL
  have h : (List.range k).map (data_chunk raw bs k) =
      (List.range k).map (fun i => ((padded_object raw bs k).drop (i * bs)).take bs) := rfl
  rw [h, chunks_flatten, List.take_of_length_le (by rw [hZ, Nat.mul_comm])]
  rfl

/-- C16, as stated, fails: with `k = 2`, `m = 1`, one byte of input that is not
aligned and chunks of `2 ^ 31` bytes, `blocksize * k` is at least the input
length, yet `padded_chunks * blocksize` wraps to 0 in `unsigned` arithmetic,
the padded buffer has no room for the input byte and `encode_prepare` does not
return. -/
theorem encode_prepare_wraps_at_4GiB :
    (1 ≤ 2 ∧ 1 ≤ 2 ^ 31 ∧ ([7] : bufferlist).length ≤ 2 ^ 31 * 2) ∧
    encode_prepare_padded_size ⟨2, 1, [], fun _ => 2 ^ 31⟩ [7] = 0 ∧
    encode_prepare ⟨2, 1, [], fun _ => 2 ^ 31⟩ (fun _ _ => 0) false [7] [] = none := by
  decide

/-- C16, amended with the bound that the 32-bit sizes of the code impose: for
`k ≥ 1`, `m ≥ 0` with `k + m < 2 ^ 31`, an input of `L` bytes, aligned or not,
a chunk size `blocksize ≥ 1` with `L ≤ blocksize * k < 2 ^ 32` and a chunk
mapping that is empty or a permutation of `[0, k + m)`, `encode_prepare`
returns 0 and fills an empty map with exactly `k + m` entries, those of
`[0, k + m)`, each of `blocksize` bytes, such that the data chunks read in
logical order through the mapping are the successive blocks of the input
followed by `blocksize * k - L` zero bytes. -/
theorem encode_prepare_layout (ec : Instance) (junk : Nat → Nat → Byte) (aligned : Bool)
    (raw : bufferlist)
    (hk : 1 ≤ ec.k) (hbs : 1 ≤ ec.get_chunk_size raw.length)
    (hL : raw.length ≤ ec.get_chunk_size raw.length * ec.k)
    (hov : ec.get_chunk_size raw.length * ec.k < 2 ^ 32)
    (hkm : ec.k + ec.m < 2 ^ 31)
    (hmap : ec.chunk_mapping = [] ∨ List.Perm ec.chunk_mapping (all_indices (ec.k + ec.m))) :
    ∃ encoded, encode_prepare ec junk aligned raw [] = some (0, encoded) ∧
      map_keys encoded = all_indices (ec.k + ec.m) ∧
      encoded.length = ec.k + ec.m ∧
      (∀ j c, map_find encoded j = some c → c.length = ec.get_chunk_size raw.length) ∧
      (∀ i, i < ec.k → map_find encoded (concat_index ec i) =
        some (data_chunk raw (ec.get_chunk_size raw.length) ec.k i)) ∧
      ((List.range ec.k).map (fun i => map_at encoded (concat_index ec i))).flatten =
        raw ++ List.replicate (ec.get_chunk_size raw.length * ec.k - raw.length) 0 := by
  have hkeys := prepared_map_keys ec (prepared_chunk ec junk raw) hkm hmap
  refine ⟨_, encode_prepare_eq ec junk aligned raw [] hk hbs hL hov hkm hmap, hkeys, ?_, ?_,
    ?_, ?_⟩
  · have h := congrArg List.length hkeys
    simpa [map_keys, all_indices] using h
  · intro j c hc
    have hj : j ∈ all_indices (ec.k + ec.m) := by
      rw [← hkeys, mem_map_keys_iff, hc]
      simp
    obtain ⟨i, hi, rfl⟩ := (concat_index_range ec j hmap hkm).2 hj
    by_cases hik : i < ec.k
    · rw [prepared_map_data ec junk raw hkm hmap i hik] at hc
      rw [← Option.some.inj hc]
      exact data_chunk_length raw _ _ i hL hik
    · rw [prepared_map_coding ec junk raw hkm hmap i (by omega) hi] at hc
      rw [← Option.some.inj hc]
      exact create_aligned_length _ _
  · intro i hi
    exact prepared_map_data ec junk raw hkm hmap i hi
  · have hm : (List.range ec.k).map (fun i => map_at (assign_loop (concat_index ec)
        (prepared_chunk ec junk raw) (List.range (ec.k + ec.m)) []) (concat_index ec i)) =
        (List.range ec.k).map (data_chunk raw (ec.get_chunk_size raw.length) ec.k) := by
      apply List.map_congr_left
      intro i hi
      unfold map_at
      rw [prepared_map_data ec junk raw hkm hmap i (List.mem_range.1 hi)]
      rfl
    rw [hm]
    exact data_chunks_flatten raw _ _ hL

theorem encode_prepare_layout_witness :
    (1 ≤ 4 ∧ 1 ≤ 4 ∧ ([1, 2, 3, 4, 5, 6, 7, 8, 9, 10] : bufferlist).length ≤ 4 * 4 ∧
      4 * 4 < 2 ^ 32 ∧ 4 + 2 < 2 ^ 31) ∧
    (∃ encoded, encode_prepare ⟨4, 2, [], fun _ => 4⟩ (fun _ _ => 9) false
        [1, 2, 3, 4, 5, 6, 7, 8, 9, 10] [] = some (0, encoded) ∧ encoded.length = 4 + 2) ∧
    encode_prepare ⟨4, 2, [], fun _ => 4⟩ (fun _ _ => 9) false
        [1, 2, 3, 4, 5, 6, 7, 8, 9, 10] [] =
      some (0, [(0, [1, 2, 3, 4]), (1, [5, 6, 7, 8]), (2, [9, 10, 0, 0]), (3, [0, 0, 0, 0]),
        (4, [9, 9, 9, 9]), (5, [9, 9, 9, 9])]) :=
  ⟨by decide,
    (encode_prepare_layout ⟨4, 2, [], fun _ => 4⟩ (fun _ _ => 9) false
      [1, 2, 3, 4, 5, 6, 7, 8, 9, 10] (by decide) (by decide) (by decide) (by decide)
      (by decide) (Or.inl rfl)).imp (fun _ h => ⟨h.1, h.2.2.1⟩),
    by decide⟩

end ErasureCode

/-! ## The slow path of `decode` -/

namespace ErasureCode

end ErasureCode

/-! ## The arithmetic of `encode_prepare` -/

namespace ErasureCode

theorem encode_prepare_unfold (ec : Instance) (junk : Nat → Nat → Byte) (aligned : Bool)
    (raw : bufferlist) (e : ChunkMap) :
    encode_prepare ec junk aligned raw e =
      if encode_prepare_blocksize ec raw = 0 then none
      else
        match (if aligned then some raw
          else if encode_prepare_padded_chunks ec raw ≠ 0 then
            splice raw (encode_prepare_split ec raw)
              (usub (encode_prepare_padded_size ec raw) (encode_prepare_pad_len ec raw))
          else some raw) with
        | none => none
        | some prepared =>
          match prepare_data_loop ec prepared (encode_prepare_blocksize ec raw)
              (List.range (usub ec.get_data_chunk_count (encode_prepare_padded_chunks ec raw)))
              e with
          | none => none
          | some encoded1 =>
            match (if encode_prepare_padded_chunks ec raw ≠ 0 then
                match prepare_padded_buffer junk raw (encode_prepare_blocksize ec raw)
                    (encode_prepare_padded_chunks ec raw) (encode_prepare_split ec raw)
                    (encode_prepare_remainder ec raw) (encode_prepare_pad_len ec raw) with
                | none => none
                | some padded =>
                  prepare_padded_loop ec padded (encode_prepare_blocksize ec raw)
                    (usub ec.get_data_chunk_count (encode_prepare_padded_chunks ec raw))
                    (List.range'
                      (usub ec.get_data_chunk_count (encode_prepare_padded_chunks ec raw))
                      (ec.get_data_chunk_count -
                        usub ec.get_data_chunk_count (encode_prepare_padded_chunks ec raw)))
                    encoded1
              else some encoded1) with
            | none => none
            | some encoded2 =>
              match prepare_coding_loop ec junk (encode_prepare_blocksize ec raw)
                  (List.range' ec.get_data_chunk_count
                    (u32 (ec.get_data_chunk_count +
                      usub ec.get_chunk_count ec.get_data_chunk_count) -
                      ec.get_data_chunk_count)) encoded2 with
              | none => none
              | some encoded3 => some ((0 : Int), encoded3) := by
  rfl

theorem encode_prepare_values (ec : Instance) (raw : bufferlist)
    (hk : 1 ≤ ec.k) (hbs : 1 ≤ ec.get_chunk_size raw.length)
    (hL : raw.length ≤ ec.get_chunk_size raw.length * ec.k)
    (hov : ec.get_chunk_size raw.length * ec.k < 2 ^ 32) :
    ec.get_data_chunk_count = ec.k ∧
    encode_prepare_blocksize ec raw = ec.get_chunk_size raw.length ∧
    encode_prepare_padded_chunks ec raw = ec.k - raw.length / ec.get_chunk_size raw.length ∧
    encode_prepare_pad_len ec raw = ec.get_chunk_size raw.length * ec.k - raw.length ∧
    encode_prepare_split ec raw =
      raw.length / ec.get_chunk_size raw.length * ec.get_chunk_size raw.length ∧
    encode_prepare_remainder ec raw = raw.length % ec.get_chunk_size raw.length ∧
    encode_prepare_padded_size ec raw =
      (ec.k - raw.length / ec.get_chunk_size raw.length) * ec.get_chunk_size raw.length := by
  have hq : raw.length / ec.get_chunk_size raw.length ≤ ec.k := Nat.div_le_of_le_mul hL
  have hA : raw.length / ec.get_chunk_size raw.length * ec.get_chunk_size raw.length +
      raw.length % ec.get_chunk_size raw.length = raw.length := Nat.div_add_mod' _ _
  have hB : (ec.k - raw.length / ec.get_chunk_size raw.length) * ec.get_chunk_size raw.length +
      raw.length / ec.get_chunk_size raw.length * ec.get_chunk_size raw.length =
      ec.get_chunk_size raw.length * ec.k := by
    rw [← Nat.add_mul, Nat.sub_add_cancel hq, Nat.mul_comm]
  have hC : ec.get_chunk_size raw.length ≤ ec.get_chunk_size raw.length * ec.k :=
    Nat.le_mul_of_pos_right _ hk
  have hD : ec.k ≤ ec.get_chunk_size raw.length * ec.k := Nat.le_mul_of_pos_left _ hbs
  have e1 : ec.get_data_chunk_count = ec.k := u32_of_lt _ (by omega)
  have e3 : u32 raw.length = raw.length := u32_of_lt _ (by omega)
  have e4 : u32 (ec.get_chunk_size raw.length) = ec.get_chunk_size raw.length :=
    u32_of_lt _ (by omega)
  have v1 : encode_prepare_blocksize ec raw = ec.get_chunk_size raw.length := by
    unfold encode_prepare_blocksize
    rw [e3, e4]
  have v2 : encode_prepare_padded_chunks ec raw =
      ec.k - raw.length / ec.get_chunk_size raw.length := by
    unfold encode_prepare_padded_chunks
    rw [v1, e1, e3]
    exact usub_of_le _ _ hq (by omega)
  have v3 : encode_prepare_pad_len ec raw =
      ec.get_chunk_size raw.length * ec.k - raw.length := by
    unfold encode_prepare_pad_len
    rw [v1, e1, e3, u32_of_lt _ hov]
    exact usub_of_le _ _ hL hov
  have v4 : encode_prepare_split ec raw =
      raw.length / ec.get_chunk_size raw.length * ec.get_chunk_size raw.length := by
    unfold encode_prepare_split
    rw [v1, v2, e1]
    have h1 : usub ec.k (ec.k - raw.length / ec.get_chunk_size raw.length) =
        raw.length / ec.get_chunk_size raw.length := by
      rw [usub_of_le ec.k (ec.k - raw.length / ec.get_chunk_size raw.length)
        (Nat.sub_le _ _) (by omega)]
      exact Nat.sub_sub_self hq
    rw [h1]
    exact u32_of_lt _ (by omega)
  have v5 : encode_prepare_remainder ec raw = raw.length % ec.get_chunk_size raw.length := by
    unfold encode_prepare_remainder
    rw [v4, e3, usub_of_le raw.length _ (by omega) (by omega)]
    omega
  have v6 : encode_prepare_padded_size ec raw =
      (ec.k - raw.length / ec.get_chunk_size raw.length) * ec.get_chunk_size raw.length := by
    unfold encode_prepare_padded_size
    rw [v1, v2]
    exact u32_of_lt _ (by omega)
  exact ⟨e1, v1, v2, v3, v4, v5, v6⟩

/-- C18, as stated, fails: with `k = 2`, one byte of input and
`blocksize = 2 ^ 31`, `blocksize * k` is at least the input length, the code
computes `remainder = 1` and `pad_len = 2 ^ 32 - 1`, yet the buffer it
allocates has `padded_chunks * blocksize = 0` bytes in `unsigned` arithmetic:
the copied byte and the zeroed region do not fit the buffer, the copy writes
past its end. -/
theorem padded_buffer_not_covered_at_4GiB :
    (1 ≤ 2 ∧ 1 ≤ 2 ^ 31 ∧ ([7] : bufferlist).length ≤ 2 ^ 31 * 2) ∧
    encode_prepare_remainder ⟨2, 1, [], fun _ => 2 ^ 31⟩ [7] = 1 ∧
    encode_prepare_pad_len ⟨2, 1, [], fun _ => 2 ^ 31⟩ [7] = 2 ^ 32 - 1 ∧
    encode_prepare_padded_size ⟨2, 1, [], fun _ => 2 ^ 31⟩ [7] = 0 ∧
    encode_prepare_remainder ⟨2, 1, [], fun _ => 2 ^ 31⟩ [7] +
        encode_prepare_pad_len ⟨2, 1, [], fun _ => 2 ^ 31⟩ [7] ≠
      encode_prepare_padded_size ⟨2, 1, [], fun _ => 2 ^ 31⟩ [7] ∧
    prepare_padded_buffer (fun _ _ => 0) [7]
      (encode_prepare_blocksize ⟨2, 1, [], fun _ => 2 ^ 31⟩ [7])
      (encode_prepare_padded_chunks ⟨2, 1, [], fun _ => 2 ^ 31⟩ [7])
      (encode_prepare_split ⟨2, 1, [], fun _ => 2 ^ 31⟩ [7])
      (encode_prepare_remainder ⟨2, 1, [], fun _ => 2 ^ 31⟩ [7])
      (encode_prepare_pad_len ⟨2, 1, [], fun _ => 2 ^ 31⟩ [7]) = none := by
  decide

/-- C18, amended with the bound that the 32-bit sizes of the code impose: for
`k ≥ 1`, `blocksize ≥ 1` and `L ≤ blocksize * k < 2 ^ 32`, the values that
`encode_prepare` computes satisfy
`remainder + pad_len = padded_chunks * blocksize`, the size of the padded
buffer, with `remainder = L - (k - padded_chunks) * blocksize = L mod blocksize`,
`pad_len = blocksize * k - L` and `padded_chunks = k - L / blocksize`; the
padded buffer ends up as the `remainder` real bytes followed by `pad_len`
zeros whatever the allocation held, so no byte of it stays uninitialised and
none is written past its end. -/
theorem padded_buffer_covered (ec : Instance) (raw : bufferlist)
    (hk : 1 ≤ ec.k) (hbs : 1 ≤ ec.get_chunk_size raw.length)
    (hL : raw.length ≤ ec.get_chunk_size raw.length * ec.k)
    (hov : ec.get_chunk_size raw.length * ec.k < 2 ^ 32) :
    encode_prepare_remainder ec raw + encode_prepare_pad_len ec raw =
      encode_prepare_padded_chunks ec raw * encode_prepare_blocksize ec raw ∧
    encode_prepare_padded_size ec raw =
      encode_prepare_padded_chunks ec raw * encode_prepare_blocksize ec raw ∧
    encode_prepare_remainder ec raw =
      raw.length - (ec.k - encode_prepare_padded_chunks ec raw) *
        encode_prepare_blocksize ec raw ∧
    encode_prepare_remainder ec raw = raw.length % encode_prepare_blocksize ec raw ∧
    encode_prepare_pad_len ec raw = encode_prepare_blocksize ec raw * ec.k - raw.length ∧
    encode_prepare_padded_chunks ec raw = ec.k - raw.length / encode_prepare_blocksize ec raw ∧
    ∀ junk : Nat → Nat → Byte,
      prepare_padded_buffer junk raw (encode_prepare_blocksize ec raw)
        (encode_prepare_padded_chunks ec raw) (encode_prepare_split ec raw)
        (encode_prepare_remainder ec raw) (encode_prepare_pad_len ec raw) =
        some (raw.drop (encode_prepare_split ec raw) ++
          List.replicate (encode_prepare_pad_len ec raw) 0) ∧
      (raw.drop (encode_prepare_split ec raw) ++
          List.replicate (encode_prepare_pad_len ec raw) (0 : Byte)).length =
        encode_prepare_padded_size ec raw ∧
      (raw.drop (encode_prepare_split ec raw)).length = encode_prepare_remainder ec raw := by
  obtain ⟨_, v1, v2, v3, v4, v5, v6⟩ := encode_prepare_values ec raw hk hbs hL hov
  have hq : raw.length / ec.get_chunk_size raw.length ≤ ec.k := Nat.div_le_of_le_mul hL
  have hA : raw.length / ec.get_chunk_size raw.length * ec.get_chunk_size raw.length +
      raw.length % ec.get_chunk_size raw.length = raw.length := Nat.div_add_mod' _ _
  have hB : (ec.k - raw.length / ec.get_chunk_size raw.length) * ec.get_chunk_size raw.length +
      raw.length / ec.get_chunk_size raw.length * ec.get_chunk_size raw.length =
      ec.get_chunk_size raw.length * ec.k := by
    rw [← Nat.add_mul, Nat.sub_add_cancel hq, Nat.mul_comm]
  have hE : ec.k - (ec.k - raw.length / ec.get_chunk_size raw.length) =
      raw.length / ec.get_chunk_size raw.length := Nat.sub_sub_self hq
  rw [v1, v2, v3, v4, v5, v6, hE]
  generalize ec.get_chunk_size raw.length = bs at hbs hL hov hq hA hB ⊢
  generalize raw.length / bs = q at hq hA hB ⊢
  generalize raw.length % bs = r at hA ⊢
  refine ⟨by omega, rfl, by omega, rfl, rfl, rfl, ?_⟩
  intro junk
  refine ⟨prepare_padded_buffer_eq junk raw bs _ _ _ _ hA (by omega) (by omega), ?_, ?_⟩
  · rw [List.length_append, List.length_drop, List.length_replicate]
    omega
  · rw [List.length_drop]
    omega

theorem padded_buffer_covered_witness :
    (1 ≤ 4 ∧ 1 ≤ 4 ∧ ([1, 2, 3, 4, 5, 6, 7, 8, 9, 10] : bufferlist).length ≤ 4 * 4 ∧
      4 * 4 < 2 ^ 32) ∧
    encode_prepare_remainder ⟨4, 2, [], fun _ => 4⟩ [1, 2, 3, 4, 5, 6, 7, 8, 9, 10] +
        encode_prepare_pad_len ⟨4, 2, [], fun _ => 4⟩ [1, 2, 3, 4, 5, 6, 7, 8, 9, 10] =
      encode_prepare_padded_chunks ⟨4, 2, [], fun _ => 4⟩ [1, 2, 3, 4, 5, 6, 7, 8, 9, 10] *
        encode_prepare_blocksize ⟨4, 2, [], fun _ => 4⟩ [1, 2, 3, 4, 5, 6, 7, 8, 9, 10] ∧
    encode_prepare_remainder ⟨4, 2, [], fun _ => 4⟩ [1, 2, 3, 4, 5, 6, 7, 8, 9, 10] = 2 ∧
    encode_prepare_pad_len ⟨4, 2, [], fun _ => 4⟩ [1, 2, 3, 4, 5, 6, 7, 8, 9, 10] = 6 :=
  ⟨by decide,
    (padded_buffer_covered ⟨4, 2, [], fun _ => 4⟩ [1, 2, 3, 4, 5, 6, 7, 8, 9, 10]
      (by decide) (by decide) (by decide) (by decide)).1,
    by decide, by decide⟩

end ErasureCode

/-! ## The ranges read by `encode_prepare` -/

namespace ErasureCode

theorem splice_length (b prepared : bufferlist) (off len : Nat)
    (h : splice b off len = some prepared) (hoff : off ≤ b.length) : off ≤ prepared.length := by
  unfold splice at h
  split_ifs at h with h1 h2
  · rw [← Option.some.inj h]
    exact hoff
  · rw [← Option.some.inj h, List.length_append, List.length_take]
    omega

theorem padded_chunks_zero_iff (k bs L : Nat) (hbs : 1 ≤ bs) (hL : L ≤ bs * k) :
    k - L / bs = 0 ↔ L = bs * k := by
  constructor
  · intro h
    have h1 : k ≤ L / bs := by omega
    have h2 : k * bs ≤ L := (Nat.le_div_iff_mul_le (by omega)).1 h1
    rw [Nat.mul_comm] at h2
    omega
  · intro h
    subst h
    rw [Nat.mul_div_cancel_left _ (by omega : 0 < bs)]
    exact Nat.sub_self _

/-- C19, as stated, fails: with `k = 2`, one byte of input and
`blocksize = 2 ^ 31`, `blocksize * k` is at least the input length, yet the
`unsigned` product `blocksize * k` is 0, so `blocksize * k - raw.length()`
wraps to `2 ^ 32 - 1`, `pad_len` exceeds `padded_chunks * blocksize`, and the
view of the first padded chunk leaves the padded buffer. -/
theorem pad_len_wraps_at_4GiB :
    (1 ≤ 2 ∧ 1 ≤ 2 ^ 31 ∧ ([7] : bufferlist).length ≤ 2 ^ 31 * 2) ∧
    u32 (encode_prepare_blocksize ⟨2, 1, [], fun _ => 2 ^ 31⟩ [7] *
        Instance.get_data_chunk_count ⟨2, 1, [], fun _ => 2 ^ 31⟩) <
      u32 ([7] : bufferlist).length ∧
    encode_prepare_pad_len ⟨2, 1, [], fun _ => 2 ^ 31⟩ [7] = 2 ^ 32 - 1 ∧
    ¬ (encode_prepare_pad_len ⟨2, 1, [], fun _ => 2 ^ 31⟩ [7] <
      encode_prepare_padded_size ⟨2, 1, [], fun _ => 2 ^ 31⟩ [7] + 1) ∧
    substr_of (create_aligned (fun _ => 0)
        (encode_prepare_padded_size ⟨2, 1, [], fun _ => 2 ^ 31⟩ [7])) 0
      (encode_prepare_blocksize ⟨2, 1, [], fun _ => 2 ^ 31⟩ [7]) = none := by
  decide

/-- C19, amended with the bound that the 32-bit sizes of the code impose: for
`k ≥ 1`, `blocksize ≥ 1` and `L ≤ blocksize * k < 2 ^ 32`, no `unsigned`
subtraction of `encode_prepare` wraps (the subtrahend is never larger),
`L / blocksize ≤ k`, `padded_chunks ≤ k`,
`pad_len < padded_chunks * blocksize + 1`, `(k - padded_chunks) * blocksize ≤ L`,
`padded_chunks = 0` exactly when `L = blocksize * k`, and every `splice`,
`substr_of` and `copy` of `encode_prepare` reads a range inside its source
buffer. -/
theorem encode_prepare_ranges (ec : Instance) (raw : bufferlist)
    (hk : 1 ≤ ec.k) (hbs : 1 ≤ ec.get_chunk_size raw.length)
    (hL : raw.length ≤ ec.get_chunk_size raw.length * ec.k)
    (hov : ec.get_chunk_size raw.length * ec.k < 2 ^ 32) :
    (u32 raw.length ≤ u32 (encode_prepare_blocksize ec raw * ec.get_data_chunk_count) ∧
      u32 raw.length / encode_prepare_blocksize ec raw ≤ ec.get_data_chunk_count ∧
      encode_prepare_padded_chunks ec raw ≤ ec.get_data_chunk_count ∧
      encode_prepare_pad_len ec raw ≤ encode_prepare_padded_size ec raw ∧
      encode_prepare_split ec raw ≤ u32 raw.length) ∧
    (raw.length / encode_prepare_blocksize ec raw ≤ ec.k ∧
      encode_prepare_padded_chunks ec raw ≤ ec.k ∧
      encode_prepare_pad_len ec raw <
        encode_prepare_padded_chunks ec raw * encode_prepare_blocksize ec raw + 1 ∧
      (ec.k - encode_prepare_padded_chunks ec raw) * encode_prepare_blocksize ec raw ≤
        raw.length ∧
      (encode_prepare_padded_chunks ec raw = 0 ↔
        raw.length = encode_prepare_blocksize ec raw * ec.k)) ∧
    ((∃ prepared, splice raw (encode_prepare_split ec raw)
        (usub (encode_prepare_padded_size ec raw) (encode_prepare_pad_len ec raw)) =
          some prepared ∧
        ∀ i, i < usub ec.get_data_chunk_count (encode_prepare_padded_chunks ec raw) →
          (substr_of prepared (u32 (i * encode_prepare_blocksize ec raw))
            (encode_prepare_blocksize ec raw)).isSome) ∧
      (∀ i, i < usub ec.get_data_chunk_count (encode_prepare_padded_chunks ec raw) →
        (substr_of raw (u32 (i * encode_prepare_blocksize ec raw))
          (encode_prepare_blocksize ec raw)).isSome) ∧
      (copy raw (encode_prepare_split ec raw) (encode_prepare_remainder ec raw)).isSome ∧
      ∀ junk : Nat → Nat → Byte, ∃ padded,
        prepare_padded_buffer junk raw (encode_prepare_blocksize ec raw)
          (encode_prepare_padded_chunks ec raw) (encode_prepare_split ec raw)
          (encode_prepare_remainder ec raw) (encode_prepare_pad_len ec raw) = some padded ∧
        ∀ i, usub ec.get_data_chunk_count (encode_prepare_padded_chunks ec raw) ≤ i →
          i < ec.get_data_chunk_count →
          (substr_of padded
            (u32 (usub i (usub ec.get_data_chunk_count (encode_prepare_padded_chunks ec raw)) *
              encode_prepare_blocksize ec raw))
            (encode_prepare_blocksize ec raw)).isSome) := by
  obtain ⟨e1, v1, v2, v3, v4, v5, v6⟩ := encode_prepare_values ec raw hk hbs hL hov
  have hq : raw.length / ec.get_chunk_size raw.length ≤ ec.k := Nat.div_le_of_le_mul hL
  have hA : raw.length / ec.get_chunk_size raw.length * ec.get_chunk_size raw.length +
      raw.length % ec.get_chunk_size raw.length = raw.length := Nat.div_add_mod' _ _
  have hB : (ec.k - raw.length / ec.get_chunk_size raw.length) * ec.get_chunk_size raw.length +
      raw.length / ec.get_chunk_size raw.length * ec.get_chunk_size raw.length =
      ec.get_chunk_size raw.length * ec.k := by
    rw [← Nat.add_mul, Nat.sub_add_cancel hq, Nat.mul_comm]
  have hD : ec.k ≤ ec.get_chunk_size raw.length * ec.k := Nat.le_mul_of_pos_left _ hbs
  have hE : ec.k - (ec.k - raw.length / ec.get_chunk_size raw.length) =
      raw.length / ec.get_chunk_size raw.length := Nat.sub_sub_self hq
  have hF : usub ec.k (ec.k - raw.length / ec.get_chunk_size raw.length) =
      raw.length / ec.get_chunk_size raw.length := by
    rw [usub_of_le ec.k (ec.k - raw.length / ec.get_chunk_size raw.length)
      (Nat.sub_le _ _) (by omega)]
    exact hE
  have hzero : ec.k - raw.length / ec.get_chunk_size raw.length = 0 ↔
      raw.length = ec.get_chunk_size raw.length * ec.k :=
    padded_chunks_zero_iff _ _ _ hbs hL
  have e3 : u32 raw.length = raw.length := u32_of_lt _ (by omega)
  rw [e1, v1, v2, v3, v4, v5, v6, hE, hF, e3, u32_of_lt _ hov]
  have hpb := fun junk : Nat → Nat → Byte => prepare_padded_buffer_eq junk raw
    (ec.get_chunk_size raw.length) (ec.k - raw.length / ec.get_chunk_size raw.length)
    (raw.length / ec.get_chunk_size raw.length * ec.get_chunk_size raw.length)
    (raw.length % ec.get_chunk_size raw.length)
    (ec.get_chunk_size raw.length * ec.k - raw.length) hA (by omega) (by omega)
  generalize ec.get_chunk_size raw.length = bs at hbs hL hov hq hA hB hD hzero hpb ⊢
  generalize raw.length / bs = q at hq hA hB hzero hpb ⊢
  generalize raw.length % bs = r at hA hpb ⊢
  have hsub : ∀ (X : bufferlist) (i : Nat), i < q → q * bs ≤ X.length →
      (substr_of X (u32 (i * bs)) bs).isSome := by
    intro X i hi hX
    have hi2 : (i + 1) * bs ≤ q * bs := Nat.mul_le_mul_right bs hi
    rw [Nat.add_mul, Nat.one_mul] at hi2
    unfold substr_of
    rw [u32_of_lt (i * bs) (by omega), if_pos (by omega)]
    rfl
  have hlen : usub ((ec.k - q) * bs) (bs * ec.k - raw.length) = r := by
    rw [usub_of_le ((ec.k - q) * bs) (bs * ec.k - raw.length) (by omega) (by omega)]
    omega
  refine ⟨⟨hL, hq, Nat.sub_le _ _, by omega, by omega⟩,
    ⟨hq, Nat.sub_le _ _, by omega, by omega, hzero⟩, ?_, ?_, ?_, ?_⟩
  · rw [hlen]
    have hsp : ∃ prepared, splice raw (q * bs) r = some prepared := by
      unfold splice
      by_cases hr : r = 0
      · exact ⟨raw, by rw [if_pos hr]⟩
      · exact ⟨_, by rw [if_neg hr, if_pos (by omega)]⟩
    obtain ⟨prepared, hp⟩ := hsp
    exact ⟨prepared, hp, fun i hi =>
      hsub prepared i hi (splice_length raw prepared _ _ hp (by omega))⟩
  · intro i hi
    exact hsub raw i hi (by omega)
  · unfold copy
    rw [if_pos (by omega)]
    rfl
  · intro junk
    refine ⟨_, hpb junk, ?_⟩
    intro i hi1 hi2
    have hi3 : (i - q + 1) * bs ≤ (ec.k - q) * bs := Nat.mul_le_mul_right bs (by omega)
    rw [Nat.add_mul, Nat.one_mul] at hi3
    unfold substr_of
    rw [usub_of_le i q hi1 (by omega), u32_of_lt ((i - q) * bs) (by omega),
      if_pos (by
        rw [List.length_append, List.length_drop, List.length_replicate]
        omega)]
    rfl

theorem encode_prepare_ranges_witness :
    (1 ≤ 4 ∧ 1 ≤ 4 ∧ ([1, 2, 3, 4, 5, 6, 7, 8, 9, 10] : bufferlist).length ≤ 4 * 4 ∧
      4 * 4 < 2 ^ 32) ∧
    encode_prepare_padded_chunks ⟨4, 2, [], fun _ => 4⟩ [1, 2, 3, 4, 5, 6, 7, 8, 9, 10] ≤ 4 ∧
    encode_prepare_padded_chunks ⟨4, 2, [], fun _ => 4⟩ [1, 2, 3, 4, 5, 6, 7, 8, 9, 10] = 2 ∧
    encode_prepare_padded_chunks ⟨2, 1, [], fun _ => 3⟩ [1, 2, 3, 4, 5, 6] = 0 :=
  ⟨by decide,
    (encode_prepare_ranges ⟨4, 2, [], fun _ => 4⟩ [1, 2, 3, 4, 5, 6, 7, 8, 9, 10]
      (by decide) (by decide) (by decide) (by decide)).2.1.2.1,
    by decide, by decide⟩

end ErasureCode

/-! ## The slow path of `decode` on an empty map -/

namespace ErasureCode

/-- C20 fails on the code: with chunk 0 wanted and an empty available map, the
test of the fast path fails, the slow path is taken and the block size is read
from the first entry of a map that has none; the read is undefined and `decode`
has no result, whatever the strategy. -/
theorem decode_reads_first_entry_of_empty_map :
    includes (map_keys []) [0] = false ∧
    decode ⟨2, 1, [], fun _ => 2⟩ (fun _ _ d => some (0, d)) (fun _ _ => 0) [0] [] [] = none ∧
    decode ⟨2, 1, [], fun _ => 2⟩ decode_chunks_not_implemented (fun _ _ => 0) [0] [] [] =
      none := by
  decide

end ErasureCode
